import Mathlib

/-!
Verification development for the unipept/libsais-packed repository: a sparse
suffix-array builder that bit-packs a text over a small alphabet, runs the
libsais SA-IS engine on the packed sequence, rescales positions, and optionally
bit-compresses the resulting 64-bit entries.

Shallow embedding conventions used throughout this file:

* C unsigned machine integers are embedded as `Nat` with explicit `% 2^w`
  truncation exactly where the C code truncates (assignment to a narrower
  lvalue); signed 64-bit values are embedded as `Int`, with the bit tricks
  `x & SAINT_MAX` and `x | SAINT_MIN` expressed through the arithmetic they
  perform on in-range two's-complement values.
* C arrays are embedded as `List Nat` / `List Int` (when the code walks them
  front to back) or as functions `Nat → Int` (when the code does scattered
  indexed writes); an indexed C read `a[i]` becomes `a.getD i 0` resp. `a i`.
* The `libsais64` / `libsais32x64` entry points called by the driver are not
  part of the sources (only this repository's 16-bit engine is); where a claim
  depends on them they are modelled from the spec contract as the sorted
  permutation of suffix positions, and this is recorded on the definition.
-/

namespace LibsaisPacked

/-! ## Lexicographic comparison of symbol sequences

The spec orders suffixes by lexicographic comparison under the virtual-sentinel
convention: a proper prefix is strictly smaller than the longer sequence.
`lcmp` is the three-way comparison realising that order on `List Nat`.
-/

/-- Three-way natural-number comparison. -/
def ncmp (a b : Nat) : Ordering :=
  if a < b then .lt else if b < a then .gt else .eq

/-- Three-way lexicographic comparison of symbol sequences; the empty sequence
(the virtual sentinel) is smaller than any nonempty one. -/
def lcmp : List Nat → List Nat → Ordering
  | [], [] => .eq
  | [], _ :: _ => .lt
  | _ :: _, [] => .gt
  | a :: x, b :: y => match ncmp a b with
    | .eq => lcmp x y
    | o => o

theorem ncmp_eq_iff (a b : Nat) : ncmp a b = .eq ↔ a = b := by
  unfold ncmp
  rcases Nat.lt_trichotomy a b with h | h | h
  · simp only [if_pos h]; constructor
    · intro hc; cases hc
    · omega
  · subst h; simp
  · rw [if_neg (Nat.lt_asymm h), if_pos h]; constructor
    · intro hc; cases hc
    · omega

theorem ncmp_lt_iff (a b : Nat) : ncmp a b = .lt ↔ a < b := by
  unfold ncmp
  rcases Nat.lt_trichotomy a b with h | h | h
  · simp [h]
  · subst h; simp
  · rw [if_neg (Nat.lt_asymm h), if_pos h]; constructor
    · intro hc; cases hc
    · omega

theorem ncmp_gt_iff (a b : Nat) : ncmp a b = .gt ↔ b < a := by
  unfold ncmp
  rcases Nat.lt_trichotomy a b with h | h | h
  · rw [if_pos h]; constructor
    · intro hc; cases hc
    · omega
  · subst h; simp
  · rw [if_neg (Nat.lt_asymm h), if_pos h]; simpa using h

theorem ncmp_swap (a b : Nat) : ncmp a b = (ncmp b a).swap := by
  unfold ncmp
  rcases Nat.lt_trichotomy a b with h | h | h
  · rw [if_pos h, if_neg (Nat.lt_asymm h), if_pos h]; rfl
  · subst h; simp [Ordering.swap]
  · rw [if_neg (Nat.lt_asymm h), if_pos h, if_pos h]; rfl

theorem lcmp_eq_iff : ∀ x y : List Nat, lcmp x y = .eq ↔ x = y
  | [], [] => by simp [lcmp]
  | [], _ :: _ => by simp [lcmp]
  | _ :: _, [] => by simp [lcmp]
  | a :: x, b :: y => by
    unfold lcmp
    rcases h : ncmp a b with _ | _ | _
    · have : a ≠ b := fun he => by
        rw [he, (ncmp_eq_iff b b).mpr rfl] at h; cases h
      simp_all
    · have hab : a = b := (ncmp_eq_iff a b).mp h
      simpa [hab] using lcmp_eq_iff x y
    · have : a ≠ b := fun he => by
        rw [he, (ncmp_eq_iff b b).mpr rfl] at h; cases h
      simp_all

theorem lcmp_refl (x : List Nat) : lcmp x x = .eq := (lcmp_eq_iff x x).mpr rfl

theorem lcmp_swap : ∀ x y : List Nat, lcmp x y = (lcmp y x).swap
  | [], [] => by simp [lcmp]; rfl
  | [], _ :: _ => by simp [lcmp]; rfl
  | _ :: _, [] => by simp [lcmp]; rfl
  | a :: x, b :: y => by
    unfold lcmp
    rw [ncmp_swap a b]
    rcases ncmp b a with _ | _ | _
    · rfl
    · exact lcmp_swap x y
    · rfl

/-- Transitivity of the non-strict lexicographic order realised by `lcmp`. -/
theorem lcmp_trans : ∀ x y z : List Nat,
    lcmp x y ≠ .gt → lcmp y z ≠ .gt → lcmp x z ≠ .gt
  | [], y, z => by
    intro _ _
    cases z with
    | nil => simp [lcmp]
    | cons c z => simp [lcmp]
  | _ :: _, [], _ => by simp [lcmp]
  | a :: x, b :: y, z => by
    intro h1 h2
    cases z with
    | nil =>
      exfalso
      exact h2 (by simp [lcmp])
    | cons c z =>
      unfold lcmp at h1 h2 ⊢
      rcases hab : ncmp a b with _ | _ | _ <;> rw [hab] at h1 <;>
        rcases hbc : ncmp b c with _ | _ | _ <;> rw [hbc] at h2
      · have : a < c := lt_trans ((ncmp_lt_iff a b).mp hab) ((ncmp_lt_iff b c).mp hbc)
        rw [(ncmp_lt_iff a c).mpr this]; simp
      · have hbceq : b = c := (ncmp_eq_iff b c).mp hbc
        subst hbceq
        rw [hab]; simp
      · exact absurd rfl h2
      · have habeq : a = b := (ncmp_eq_iff a b).mp hab
        subst habeq
        rw [hbc]; simp
      · have habeq : a = b := (ncmp_eq_iff a b).mp hab
        have hbceq : b = c := (ncmp_eq_iff b c).mp hbc
        subst habeq; subst hbceq
        rw [(ncmp_eq_iff a a).mpr rfl]
        exact lcmp_trans x y z h1 h2
      · exact absurd rfl h2
      · exact absurd rfl h1
      · exact absurd rfl h1
      · exact absurd rfl h1

theorem lcmp_append_same : ∀ (u x y : List Nat), lcmp (u ++ x) (u ++ y) = lcmp x y
  | [], _, _ => by simp
  | a :: u, x, y => by
    simp only [List.cons_append, lcmp, (ncmp_eq_iff a a).mpr rfl]
    exact lcmp_append_same u x y

theorem lcmp_append_of_ne : ∀ (u v x y : List Nat), u.length = v.length →
    lcmp u v ≠ .eq → lcmp (u ++ x) (v ++ y) = lcmp u v
  | [], [], _, _ => by simp [lcmp]
  | [], _ :: _, _, _ => by intro h; cases h
  | _ :: _, [], _, _ => by intro h; cases h
  | a :: u, b :: v, x, y => by
    intro hlen hne
    simp only [lcmp] at hne
    simp only [List.cons_append, lcmp]
    rcases hab : ncmp a b with _ | _ | _ <;> rw [hab] at hne
    all_goals simp only [hab]
    exact lcmp_append_of_ne u v x y (by simpa using hlen) (by simpa using hne)

theorem lcmp_self_append (u r : List Nat) :
    lcmp u (u ++ r) = if r = [] then Ordering.eq else Ordering.lt := by
  have h := lcmp_append_same u [] r
  rw [List.append_nil] at h
  rw [h]
  cases r with
  | nil => simp [lcmp]
  | cons c r => simp [lcmp]

theorem lcmp_ne_eq_of_length_ne {x y : List Nat} (h : x.length ≠ y.length) :
    lcmp x y ≠ .eq := by
  intro he
  exact h (by rw [(lcmp_eq_iff x y).mp he])

/-- A sequence of zeros is never lexicographically greater than a same-length
sequence. -/
theorem lcmp_replicate_zero_le : ∀ (z : List Nat), z.length = m →
    lcmp (List.replicate m 0) z ≠ .gt := by
  induction m with
  | zero => intro z hz; rw [List.eq_nil_of_length_eq_zero hz]; simp [lcmp]
  | succ m ih =>
    intro z hz
    cases z with
    | nil => simp at hz
    | cons c z =>
      simp only [List.replicate_succ]
      unfold lcmp
      rcases h : ncmp 0 c with _ | _ | _
      · simp
      · exact ih z (by simpa using hz)
      · rw [ncmp_gt_iff] at h; omega

/-! ## Suffix order and the spec-modelled suffix-array contract -/

/-- Non-strict suffix order on positions of the text `t`. -/
def suffLE (t : List Nat) (i j : Nat) : Prop :=
  lcmp (t.drop i) (t.drop j) ≠ .gt

/-- Strict suffix order on positions of the text `t`. -/
def suffLT (t : List Nat) (i j : Nat) : Prop :=
  lcmp (t.drop i) (t.drop j) = .lt

instance (t : List Nat) : DecidableRel (suffLE t) := fun i j => by
  unfold suffLE; infer_instance

instance (t : List Nat) : DecidableRel (suffLT t) := fun i j => by
  unfold suffLT; infer_instance

/-- Modelled from the spec: the SA-IS engine entry points `libsais64` and
`libsais32x64` called by the driver are not part of the sources (only the
16-bit engine `libsais16x64` is, and this definition never stands for that
one: wherever the driver dispatches to it, the embedding takes the engine's
behaviour as an explicit parameter instead).  Both absent engines share the
contract of spec section 4.3 — "given `T[0..n)` produce `SA[0..n)` such that
`SA` is a permutation of `[0, n)` and
`T[SA[0]..] < T[SA[1]..] < ... < T[SA[n-1]..]` under the virtual-sentinel
convention" — modelled as sorting the positions `[0, n)` by suffix order. -/
def suffix_array (t : List Nat) : List Nat :=
  List.insertionSort (suffLE t) (List.range t.length)

theorem suffLE_total (t : List Nat) (i j : Nat) : suffLE t i j ∨ suffLE t j i := by
  unfold suffLE
  rw [lcmp_swap (t.drop j) (t.drop i)]
  cases lcmp (t.drop i) (t.drop j) with
  | lt => left; simp
  | eq => left; simp
  | gt => right; simp [Ordering.swap]

theorem suffLE_trans (t : List Nat) {i j l : Nat} (h1 : suffLE t i j)
    (h2 : suffLE t j l) : suffLE t i l :=
  lcmp_trans _ _ _ h1 h2

theorem suffix_array_perm (t : List Nat) :
    (suffix_array t).Perm (List.range t.length) :=
  List.perm_insertionSort _ _

theorem suffix_array_sorted (t : List Nat) :
    (suffix_array t).Sorted (suffLE t) := by
  haveI : IsTotal Nat (suffLE t) := ⟨suffLE_total t⟩
  haveI : IsTrans Nat (suffLE t) := ⟨fun _ _ _ => suffLE_trans t⟩
  exact List.sorted_insertionSort _ _

/-- Distinct in-range positions carry distinct suffixes, so a sorted
enumeration of positions is strictly sorted. -/
theorem suffix_array_sorted_lt (t : List Nat) :
    (suffix_array t).Sorted (suffLT t) := by
  have hperm := suffix_array_perm t
  have hnodup : (suffix_array t).Nodup :=
    hperm.nodup_iff.mpr (List.nodup_range _)
  have hmem : ∀ i ∈ suffix_array t, i < t.length := fun i hi =>
    List.mem_range.mp (hperm.mem_iff.mp hi)
  have hsorted := suffix_array_sorted t
  unfold List.Sorted at hsorted ⊢
  have hpair := List.Pairwise.and hsorted hnodup
  refine hpair.imp_of_mem ?_
  intro i j hi hj hij
  rcases hij with ⟨hle, hne⟩
  have hlen : (t.drop i).length ≠ (t.drop j).length := by
    simp only [List.length_drop]
    have := hmem i hi
    have := hmem j hj
    omega
  unfold suffLE at hle
  unfold suffLT
  cases h : lcmp (t.drop i) (t.drop j) with
  | lt => rfl
  | eq => exact absurd h (lcmp_ne_eq_of_length_ne hlen)
  | gt => exact absurd h hle

/-! ## Driver embeddings from src/src/main.c -/

/-- State of the packing loop in `compress_sa` (src/src/main.c lines 140-160):
the flushed 64-bit words so far, the accumulator `element`, and the running
`shift_element`. -/
structure CompressState where
  out : List Nat
  element : Nat
  shift : Int

/-- Loop body of `compress_sa` for one uncompressed entry `x`: when
`shift_element < 0` the entry straddles a word boundary, so its high bits are
ORed into the current word, the word is flushed, and the shift wraps by 64;
then the (remaining bits of the) entry are ORed in at the current shift. -/
def compress_step (bits_per_element : Nat) (s : CompressState) (x : Nat) : CompressState :=
  let s :=
    if s.shift < 0 then
      { out := s.out ++ [s.element ||| x >>> (-s.shift).toNat],
        element := 0,
        shift := s.shift + 64 }
    else s
  { s with
    element := s.element ||| (x <<< s.shift.toNat) % 2 ^ 64,
    shift := s.shift - bits_per_element }

/-- Embedding of `compress_sa` (src/src/main.c lines 140-160).  The C function
compresses the caller's `uint64_t` array in place and shrinks `*sa_length`; the
embedding returns the final array contents (packed prefix followed by the
untouched remainder of the original entries) together with the new length. -/
def compress_sa (sa : List Nat) (bits_per_element : Nat) : List Nat × Nat :=
  let s := sa.foldl (compress_step bits_per_element)
    { out := [], element := 0, shift := (64 : Int) - bits_per_element }
  let written := s.out ++ [s.element % 2 ^ 64]
  (written ++ sa.drop written.length, written.length)

/-- Embedding of `decompress_sa` (src/src/main.c lines 163-182).  The C
function ORs each extracted entry into a freshly `malloc`ed buffer whose
contents are indeterminate; the embedding therefore takes the initial buffer
contents `init` (one value per entry to decompress) as an explicit argument.
The state carried across entries is the compressed word index and
`start_shift_element`. -/
def decompress_sa (sa : List Nat) (bits_per_element : Nat) (init : List Nat) : List Nat :=
  (init.foldl
    (fun (acc : List Nat × Nat × Nat) g =>
      let res := acc.1
      let c := acc.2.1
      let start := acc.2.2
      let v := g ||| ((sa.getD c 0 <<< start) % 2 ^ 64) >>> (64 - bits_per_element)
      let start1 := start + bits_per_element
      if start1 ≥ 64 then
        let c1 := c + 1
        let start2 := start1 - 64
        let v1 := if start2 > 0 then v ||| sa.getD c1 0 >>> (64 - start2) else v
        (res ++ [v1], c1, start2)
      else
        (res ++ [v], c, start1))
    ([], 0, 0)).1

/-- Embedding of the `bits_per_element` header byte computed by `write_sa`
(src/src/main.c lines 195-198): 64 when compression is off, otherwise
`(uint8_t) log2(sa_length * sparseness_factor) + 1`.  The C cast truncates the
`double` logarithm toward zero, i.e. it computes the floor base-2 logarithm,
embedded as `Nat.log2`. -/
def write_sa_bits_per_element (sa_length : Nat) (sparseness_factor : Nat)
    (compressed : Bool) : Nat :=
  if compressed then Nat.log2 (sa_length * sparseness_factor) + 1 else 64

/-! ## Entry guard of the 16-bit engine (src/libsais/src/libsais16x64.c) -/

namespace Libsais16

/-- Alphabet size of the 16-bit engine: `(1 << CHAR_BIT << CHAR_BIT)`. -/
def ALPHABET_SIZE : Nat := 65536

/-- Embedding of the exported entry point `libsais16x64`
(src/libsais/src/libsais16x64.c lines 2371-2385).  Nullable pointers are
embedded as `Option`; the body reached after the guards —
`libsais16x64_main`, which allocates the bucket array and runs the engine —
is taken as an explicit parameter `mainImpl` (mapping the text, the SA buffer,
`fs` and the frequency buffer to the return code and the final SA and
frequency contents), so that the guard behaviour proved about this embedding
holds for every behaviour of the engine body.  The result tuple is the return
code followed by the final contents of `T`, `SA` and `freq`. -/
def libsais16x64
    (mainImpl : List Nat → List Int → Int → Option (List Int) →
      Int × List Int × Option (List Int))
    (T : Option (List Nat)) (SA : Option (List Int)) (n fs : Int)
    (freq : Option (List Int)) :
    Int × Option (List Nat) × Option (List Int) × Option (List Int) :=
  if T = none ∨ SA = none ∨ n < 0 ∨ fs < 0 then
    (-1, T, SA, freq)
  else if n < 2 then
    let t := T.getD []
    let freq1 := freq.map (fun _ => List.replicate ALPHABET_SIZE (0 : Int))
    if n = 1 then
      let sa1 := (SA.getD []).set 0 0
      let freq2 := freq1.map (fun f => f.set (t.getD 0 0) (f.getD (t.getD 0 0) 0 + 1))
      (0, T, some sa1, freq2)
    else
      (0, T, SA, freq1)
  else
    let r := mainImpl (T.getD []) (SA.getD []) fs freq
    (r.1, T, some r.2.1, r.2.2)

end Libsais16

/-! ## Claims C6, C7, C8 and the C10 counterexample -/

/-- Claim C6: for every call of `libsais16x64` with a null `T` pointer, a null
`SA` pointer, a negative `n`, or a negative `fs`, the function returns `-1`
and performs no mutation — `SA`, `T` and `freq` are left exactly as they were
before the call.  This holds for every behaviour of the engine body reached
after the guard. -/
theorem claim_C6_invalid_argument_no_mutation
    (mainImpl : List Nat → List Int → Int → Option (List Int) →
      Int × List Int × Option (List Int))
    (T : Option (List Nat)) (SA : Option (List Int)) (n fs : Int)
    (freq : Option (List Int))
    (h : T = none ∨ SA = none ∨ n < 0 ∨ fs < 0) :
    Libsais16.libsais16x64 mainImpl T SA n fs freq = (-1, T, SA, freq) := by
  unfold Libsais16.libsais16x64
  rw [if_pos h]

theorem claim_C6_witness :
    ((none : Option (List Nat)) = none ∨ (some ([] : List Int)) = none ∨
      (0 : Int) < 0 ∨ (0 : Int) < 0) ∧
    Libsais16.libsais16x64 (fun _ sa _ freq => (0, sa, freq))
      none (some []) 0 0 none = (-1, none, some [], none) :=
  ⟨Or.inl rfl,
    claim_C6_invalid_argument_no_mutation _ none (some []) 0 0 none (Or.inl rfl)⟩

/-- Claim C7: the claim that `decompress_sa (compress_sa SA b) = SA` whenever
`b ≥ ⌈log₂(max(SA)+1)⌉` is right, but the code has a bug: `decompress_sa` ORs
(`|=`) each extracted entry into a freshly `malloc`ed buffer whose contents
are indeterminate, so any nonzero garbage in that buffer corrupts the result.
Evaluation at the failing input: `SA = [1]`, `b = 1` (which satisfies
`b ≥ ⌈log₂(max(SA)+1)⌉ = 1`), and a decompression buffer initially holding
`[2]` yields `[3] ≠ [1]`. -/
theorem claim_C7_decompress_reads_uninitialized_buffer :
    Nat.clog 2 (1 + 1) = 1 ∧
    decompress_sa (compress_sa [1] 1).1 1 [2] = [3] ∧
    ([3] : List Nat) ≠ [1] := by
  refine ⟨Nat.clog_eq_one (by norm_num) (by norm_num), by decide, by decide⟩

/-- Claim C8 counterexample: with 5 suffix-array entries and sparseness 1 under
`-c`, the code writes `(uint8_t) log2(5) + 1 = 3` as the first header byte,
while the claim prescribes `⌈log₂(5·1)⌉ + 1 = 4`. -/
theorem claim_C8_counterexample :
    write_sa_bits_per_element 5 1 true = 3 ∧
    Nat.clog 2 (5 * 1) + 1 = 4 ∧ (3 : Nat) ≠ 4 := by
  have hl : Nat.log 2 5 = 2 :=
    Nat.log_eq_of_pow_le_of_lt_pow (by norm_num) (by norm_num)
  have hc1 : Nat.clog 2 2 = 1 := Nat.clog_eq_one (le_refl 2) (le_refl 2)
  have hc3 : Nat.clog 2 3 = 2 := by
    rw [Nat.clog_of_two_le one_lt_two (by norm_num)]
    norm_num [hc1]
  have hc5 : Nat.clog 2 5 = 3 := by
    rw [Nat.clog_of_two_le one_lt_two (by norm_num)]
    norm_num [hc3]
  refine ⟨?_, ?_, by decide⟩
  · show Nat.log2 (5 * 1) + 1 = 3
    rw [Nat.log2_eq_log_two]
    norm_num [hl]
  · norm_num [hc5]

/-- Claim C8 (amended): the first header byte written by `write_sa` equals 64
when compression is disabled, and when the `-c` flag is enabled it equals
`⌊log₂(n·k)⌋ + 1` (the number of bits of `n·k`), where `n` is the number of SA
entries and `k` the sparseness factor. -/
theorem claim_C8_header_bits_per_element (n k : Nat) (_h : 1 ≤ n * k) :
    write_sa_bits_per_element n k false = 64 ∧
    write_sa_bits_per_element n k true = Nat.log2 (n * k) + 1 :=
  ⟨rfl, rfl⟩

theorem claim_C8_witness :
    1 ≤ 5 * 1 ∧
    (write_sa_bits_per_element 5 1 false = 64 ∧
      write_sa_bits_per_element 5 1 true = Nat.log2 (5 * 1) + 1) :=
  ⟨by decide, claim_C8_header_bits_per_element 5 1 (by decide)⟩

/-- Claim C10 counterexample: `compress_sa` on an array of `L0 = 0` entries
still flushes the (empty) accumulator, so the length passed by pointer becomes
1, not `⌈L0·b/64⌉ = 0`. -/
theorem claim_C10_counterexample :
    (compress_sa [] 5).2 = 1 ∧ (([] : List Nat).length * 5 + 63) / 64 = 0 ∧
    (1 : Nat) ≠ 0 := by
  refine ⟨by decide, by decide, by decide⟩

/-! ## Bit-packing: embeddings from src/src/bitpacking.c -/

namespace Bitpacking

/-- Embedding of `get_rank_aa` (src/src/bitpacking.c lines 32-38): `$` maps to
0, `-` to 1, any other byte to `2 + (c - 'A')` computed in wrapping `uint8_t`
arithmetic. -/
def get_rank_aa (c : Nat) : Nat :=
  if c = 36 then 0 else if c = 45 then 1 else (c + 193) % 256

/-- Embedding of `get_rank_dna` (src/src/bitpacking.c lines 41-51): `$` and `A`
map to 0, `C` to 1, `G` to 2, `T` to 3; any other byte falls through to the
diagnostic branch and returns 0. -/
def get_rank_dna (c : Nat) : Nat :=
  if c = 36 then 0
  else if c = 65 then 0
  else if c = 67 then 1
  else if c = 71 then 2
  else if c = 84 then 3
  else 0

/-- Embedding of `bitpack_text_8` (src/src/bitpacking.c lines 55-85).  The
`calloc`ed output is zero for an empty text; otherwise every packed symbol but
the last ORs the ranks of `sparseness_factor` consecutive characters into a
`uint8_t` accumulator (truncating modulo `2^8` on each assignment, as the C
compound assignment does), the first character of the group at the highest
shift; the last symbol only reads the `(text_len - 1) % sparseness_factor + 1`
remaining characters. -/
def bitpack_text_8 (text : List Nat) (text_len sparseness_factor packed_len : Nat)
    (char_to_rank : Nat → Nat) (bits_per_char : Nat) : List Nat :=
  if text_len = 0 then List.replicate packed_len 0
  else
    (List.range (packed_len - 1)).map (fun i =>
      (List.range sparseness_factor).foldl
        (fun element j =>
          (element ||| char_to_rank (text.getD (i * sparseness_factor + j) 0) <<<
            (bits_per_char * (sparseness_factor - 1 - j))) % 2 ^ 8) 0)
    ++ [(List.range ((text_len - 1) % sparseness_factor + 1)).foldl
        (fun element i2 =>
          (element ||| char_to_rank (text.getD (sparseness_factor * (packed_len - 1) + i2) 0) <<<
            (bits_per_char * (sparseness_factor - 1 - i2))) % 2 ^ 8) 0]

end Bitpacking

/-! ## Bit-packing: embeddings of the variants linked by src/src/main.c

The driver calls `bitpack_text_8/16/32(text, length, sparseness_factor,
sa_length, dna)` — the five-argument signature implemented in
src/benchmark_code/src/bitpacking.c, which selects the rank function and the
bits-per-character from the `dna` flag.
-/

namespace Benchmark

/-- Modelled from the spec: the `BITS_PER_CHAR` macro used by main.c and
benchmark_code/src/bitpacking.c is defined in a header that is not part of the
sources; spec sections 2, 4.2 and 6 fix protein mode at 5 bits per
character. -/
def BITS_PER_CHAR : Nat := 5

/-- Modelled from the spec: the `BITS_PER_CHAR_DNA` macro is defined in a
header that is not part of the sources; spec section 6 fixes DNA mode at 2
bits per character (fixed 4-symbol alphabet). -/
def BITS_PER_CHAR_DNA : Nat := 2

/-- Embedding of `get_rank` (src/benchmark_code/src/bitpacking.c lines 8-14),
identical to `get_rank_aa` of src/src/bitpacking.c. -/
def get_rank (c : Nat) : Nat := Bitpacking.get_rank_aa c

/-- Embedding of `get_rank_dna` (src/benchmark_code/src/bitpacking.c lines
16-25).  For a byte outside `{$, A, C, G, T}` the benchmark copy falls off the
end of the function (undefined in C); the sibling copy in
src/src/bitpacking.c returns 0 there, which is what the embedding uses — no
claim settled below depends on bytes outside the explicit cases. -/
def get_rank_dna (c : Nat) : Nat := Bitpacking.get_rank_dna c

/-- Rank of a byte as selected by the `dna` flag:
`dna == 0 ? get_rank(c) : get_rank_dna(c)`. -/
def rank (dna : Bool) (c : Nat) : Nat :=
  if dna then get_rank_dna c else get_rank c

/-- Bits per character as selected by the `dna` flag. -/
def bits_per_char (dna : Bool) : Nat :=
  if dna then BITS_PER_CHAR_DNA else BITS_PER_CHAR

/-- Common loop shape of `bitpack_text_8/16/32/64`
(src/benchmark_code/src/bitpacking.c): the four variants differ only in the
width `W` of the output container (the accumulator truncates modulo `2^W` on
each compound assignment).  Structure as in `Bitpacking.bitpack_text_8`. -/
def bitpack_core (W : Nat) (text : List Nat) (text_len sparseness_factor packed_len : Nat)
    (dna : Bool) : List Nat :=
  if text_len = 0 then List.replicate packed_len 0
  else
    (List.range (packed_len - 1)).map (fun i =>
      (List.range sparseness_factor).foldl
        (fun element j =>
          (element ||| rank dna (text.getD (i * sparseness_factor + j) 0) <<<
            (bits_per_char dna * (sparseness_factor - 1 - j))) % 2 ^ W) 0)
    ++ [(List.range ((text_len - 1) % sparseness_factor + 1)).foldl
        (fun element i2 =>
          (element ||| rank dna (text.getD (sparseness_factor * (packed_len - 1) + i2) 0) <<<
            (bits_per_char dna * (sparseness_factor - 1 - i2))) % 2 ^ W) 0]

/-- Embedding of the benchmark `bitpack_text_8` (lines 29-61): 8-bit output
symbols. -/
def bitpack_text_8 (text : List Nat) (text_len sparseness_factor packed_len : Nat)
    (dna : Bool) : List Nat :=
  bitpack_core 8 text text_len sparseness_factor packed_len dna

/-- Embedding of the benchmark `bitpack_text_16` (lines 64-96): 16-bit output
symbols. -/
def bitpack_text_16 (text : List Nat) (text_len sparseness_factor packed_len : Nat)
    (dna : Bool) : List Nat :=
  bitpack_core 16 text text_len sparseness_factor packed_len dna

/-- Embedding of the benchmark `bitpack_text_32` (lines 100-132): 32-bit output
symbols. -/
def bitpack_text_32 (text : List Nat) (text_len sparseness_factor packed_len : Nat)
    (dna : Bool) : List Nat :=
  bitpack_core 32 text text_len sparseness_factor packed_len dna

end Benchmark

/-! ## The two driver pipelines (src/src/main.c lines 70-138) -/

/-- Embedding of `build_sa_optimized` (src/src/main.c lines 70-111): pick the
bit width from `bits_per_char * sparseness_factor`, bit-pack the text, run the
suffix-array construction on the packed sequence, and scale every entry by
the sparseness factor.  The absent engines `libsais64` (branches at lines 79
and 86) and `libsais32x64` (line 98) are modelled from the spec by
`suffix_array`; the 16-bit engine `libsais16x64` called in the
`required_bits ≤ 16` branch (line 92) has its source in the repository, so —
as with `Libsais16.libsais16x64`'s `mainImpl` — its action on the packed text
is taken as the explicit parameter `sais16` rather than being modelled, and
everything proved about the other branches holds for every behaviour of it.
The `required_bits > 32` branch only prints "Alphabet too big" and leaves the
`malloc`ed output uninitialised; it is embedded as `none`. -/
def build_sa_optimized (sais16 : List Nat → List Nat)
    (text : List Nat) (length sparseness_factor sa_length : Nat)
    (dna : Bool) : Option (List Nat) :=
  (if sparseness_factor = 1 then
      some (suffix_array (text.take sa_length))
    else if Benchmark.bits_per_char dna * sparseness_factor ≤ 8 then
      some (suffix_array (Benchmark.bitpack_text_8 text length sparseness_factor sa_length dna))
    else if Benchmark.bits_per_char dna * sparseness_factor ≤ 16 then
      some (sais16 (Benchmark.bitpack_text_16 text length sparseness_factor sa_length dna))
    else if Benchmark.bits_per_char dna * sparseness_factor ≤ 32 then
      some (suffix_array (Benchmark.bitpack_text_32 text length sparseness_factor sa_length dna))
    else none).map
    (fun sa => if 1 < sparseness_factor then sa.map (· * sparseness_factor) else sa)

/-- Embedding of `build_sa` (src/src/main.c lines 113-138): build the full
suffix array (`libsais64` modelled from the spec by `suffix_array`) and, when
the sparseness factor exceeds 1, compact the entries divisible by it to the
front in suffix-array order.  The caller consumes the first
`⌈length/k⌉` entries, i.e. exactly the compacted subsample, which is what the
embedding returns. -/
def build_sa (text : List Nat) (length sparseness_factor : Nat) : List Nat :=
  let sa := suffix_array (text.take length)
  if 1 < sparseness_factor then
    sa.filter (fun x => x % sparseness_factor == 0)
  else sa

/-! ## Spec-side packed-symbol model

The bit-packing transform, stated structurally on lists: groups of `k` digits
become one symbol whose value is the big-endian base-`2^b` digit value, the
final short group padded with zero in the least-significant slots.
-/

/-- Big-endian value of a digit sequence in base `2^b`. -/
def valBE (b : Nat) : List Nat → Nat
  | [] => 0
  | d :: g => d * 2 ^ (b * g.length) + valBE b g

/-- Value of one packed symbol of group width `k`: the big-endian digit value
with the missing least-significant slots zero. -/
def groupVal (b k : Nat) (g : List Nat) : Nat :=
  valBE b g * 2 ^ (b * (k - g.length))

/-- Structural form of the bit-packer: one packed symbol per group of `k`
digits, the final group possibly short. -/
def packList (b k : Nat) (t : List Nat) : List Nat :=
  if _h : t = [] ∨ k = 0 then []
  else groupVal b k (t.take k) :: packList b k (t.drop k)
termination_by t.length
decreasing_by
  push_neg at _h
  have : 0 < t.length := List.length_pos.mpr _h.1
  simp only [List.length_drop]
  omega

theorem valBE_lt (b : Nat) : ∀ g : List Nat, (∀ d ∈ g, d < 2 ^ b) →
    valBE b g < 2 ^ (b * g.length)
  | [], _ => by simp [valBE]
  | d :: g, h => by
    have hd : d < 2 ^ b := h d (by simp)
    have hg := valBE_lt b g (fun e he => h e (by simp [he]))
    simp only [valBE, List.length_cons]
    have : (d + 1) * 2 ^ (b * g.length) ≤ 2 ^ b * 2 ^ (b * g.length) :=
      Nat.mul_le_mul_right _ hd
    calc d * 2 ^ (b * g.length) + valBE b g
        < d * 2 ^ (b * g.length) + 2 ^ (b * g.length) := by omega
      _ = (d + 1) * 2 ^ (b * g.length) := by ring
      _ ≤ 2 ^ b * 2 ^ (b * g.length) := this
      _ = 2 ^ (b * (g.length + 1)) := by rw [← pow_add]; ring_nf

theorem valBE_replicate_zero (b z : Nat) : valBE b (List.replicate z 0) = 0 := by
  induction z with
  | zero => rfl
  | succ z ih => simp [List.replicate_succ, valBE, ih]

theorem valBE_append_replicate_zero (b : Nat) :
    ∀ g : List Nat, ∀ z : Nat,
      valBE b (g ++ List.replicate z 0) = valBE b g * 2 ^ (b * z)
  | [], z => by simp [valBE, valBE_replicate_zero]
  | d :: g, z => by
    have ih := valBE_append_replicate_zero b g z
    simp only [List.cons_append, valBE, List.append_eq]
    rw [ih, List.length_append, List.length_replicate, Nat.mul_add, pow_add]
    ring

theorem groupVal_eq_valBE_pad (b k : Nat) (g : List Nat) :
    groupVal b k g = valBE b (g ++ List.replicate (k - g.length) 0) := by
  rw [valBE_append_replicate_zero, groupVal]

theorem ncmp_add_left (t x y : Nat) : ncmp (t + x) (t + y) = ncmp x y := by
  unfold ncmp
  rcases Nat.lt_trichotomy x y with h | h | h
  · rw [if_pos (by omega), if_pos h]
  · subst h; simp
  · rw [if_neg (by omega), if_pos (by omega), if_neg (Nat.lt_asymm h), if_pos h]

/-- Comparing big-endian values of equal-length digit sequences is the
lexicographic comparison of the sequences. -/
theorem ncmp_valBE (b : Nat) : ∀ u v : List Nat, u.length = v.length →
    (∀ d ∈ u, d < 2 ^ b) → (∀ d ∈ v, d < 2 ^ b) →
    ncmp (valBE b u) (valBE b v) = lcmp u v
  | [], [], _, _, _ => by simp [valBE, lcmp, ncmp]
  | [], _ :: _, h, _, _ => by simp at h
  | _ :: _, [], h, _, _ => by simp at h
  | a :: u, c :: v, hlen, hu, hv => by
    have hlen0 : u.length = v.length := by simpa using hlen
    have hub : ∀ d ∈ u, d < 2 ^ b := fun d hd => hu d (by simp [hd])
    have hvb : ∀ d ∈ v, d < 2 ^ b := fun d hd => hv d (by simp [hd])
    have hult : valBE b u < 2 ^ (b * v.length) := by
      rw [← hlen0]; exact valBE_lt b u hub
    have hvlt : valBE b v < 2 ^ (b * v.length) := valBE_lt b v hvb
    have hval : valBE b (a :: u) = a * 2 ^ (b * v.length) + valBE b u := by
      simp [valBE, hlen0]
    have hvalc : valBE b (c :: v) = c * 2 ^ (b * v.length) + valBE b v := by
      simp [valBE]
    rw [hval, hvalc]
    rcases Nat.lt_trichotomy a c with h | h | h
    · have hlt : a * 2 ^ (b * v.length) + valBE b u <
          c * 2 ^ (b * v.length) + valBE b v := by
        have h1 : (a + 1) * 2 ^ (b * v.length) ≤ c * 2 ^ (b * v.length) :=
          Nat.mul_le_mul_right _ h
        calc a * 2 ^ (b * v.length) + valBE b u
            < a * 2 ^ (b * v.length) + 2 ^ (b * v.length) := by omega
          _ = (a + 1) * 2 ^ (b * v.length) := by ring
          _ ≤ c * 2 ^ (b * v.length) := h1
          _ ≤ c * 2 ^ (b * v.length) + valBE b v := Nat.le_add_right _ _
      rw [(ncmp_lt_iff _ _).mpr hlt]
      simp [lcmp, (ncmp_lt_iff a c).mpr h]
    · subst h
      rw [ncmp_add_left]
      simp only [lcmp, (ncmp_eq_iff a a).mpr rfl]
      exact ncmp_valBE b u v hlen0 hub hvb
    · have hgt : c * 2 ^ (b * v.length) + valBE b v <
          a * 2 ^ (b * v.length) + valBE b u := by
        have h1 : (c + 1) * 2 ^ (b * v.length) ≤ a * 2 ^ (b * v.length) :=
          Nat.mul_le_mul_right _ h
        calc c * 2 ^ (b * v.length) + valBE b v
            < c * 2 ^ (b * v.length) + 2 ^ (b * v.length) := by omega
          _ = (c + 1) * 2 ^ (b * v.length) := by ring
          _ ≤ a * 2 ^ (b * v.length) := h1
          _ ≤ a * 2 ^ (b * v.length) + valBE b u := Nat.le_add_right _ _
      rw [(ncmp_gt_iff _ _).mpr hgt]
      simp [lcmp, (ncmp_gt_iff a c).mpr h]

theorem packList_nil (b k : Nat) : packList b k [] = [] := by
  unfold packList
  simp

theorem packList_cons (b k : Nat) (t : List Nat) (ht : t ≠ []) (hk : k ≠ 0) :
    packList b k t = groupVal b k (t.take k) :: packList b k (t.drop k) := by
  rw [packList]
  rw [dif_neg (by simp [ht, hk])]

theorem packList_eq_nil_iff (b k : Nat) (hk : 0 < k) (t : List Nat) :
    packList b k t = [] ↔ t = [] := by
  constructor
  · intro h
    by_contra ht
    rw [packList_cons b k t ht (by omega)] at h
    cases h
  · intro h
    rw [h, packList_nil]

theorem packList_length (b : Nat) {k : Nat} (hk : 0 < k) :
    ∀ t : List Nat, (packList b k t).length = (t.length + k - 1) / k := by
  have H : ∀ n (t : List Nat), t.length ≤ n →
      (packList b k t).length = (t.length + k - 1) / k := by
    intro n
    induction n with
    | zero =>
      intro t htl
      have ht0 : t = [] := List.eq_nil_of_length_eq_zero (by omega)
      rw [ht0, packList_nil]
      simp only [List.length_nil]
      exact (Nat.div_eq_of_lt (by omega)).symm
    | succ n ih =>
      intro t htl
      by_cases ht : t = []
      · rw [ht, packList_nil]
        simp only [List.length_nil]
        exact (Nat.div_eq_of_lt (by omega)).symm
      · rw [packList_cons b k t ht (by omega)]
        have htpos : 0 < t.length := List.length_pos.mpr ht
        have hdrop : (t.drop k).length ≤ n := by
          simp only [List.length_drop]; omega
        simp only [List.length_cons, ih (t.drop k) hdrop, List.length_drop]
        by_cases hlk : t.length ≤ k
        · have h1 : t.length - k = 0 := by omega
          have hdiv0 : (0 + k - 1) / k = 0 := Nat.div_eq_of_lt (by omega)
          have hdiv1 : (t.length + k - 1) / k = 1 :=
            Nat.div_eq_of_lt_le (by omega) (by omega)
          rw [h1, hdiv0, hdiv1]
        · have h1 : t.length - k + k - 1 = t.length - 1 := by omega
          have h2 : t.length + k - 1 = (t.length - 1) + k := by omega
          rw [h1, h2, Nat.add_div_right _ hk]
  intro t
  exact H t.length t le_rfl

theorem packList_drop (b : Nat) {k : Nat} (hk : 0 < k) :
    ∀ (a : Nat) (t : List Nat), (packList b k t).drop a = packList b k (t.drop (k * a))
  | 0, t => by simp
  | a + 1, t => by
    by_cases ht : t = []
    · simp [ht, packList_nil]
    · rw [packList_cons b k t ht (by omega)]
      have hstep := packList_drop b hk a (t.drop k)
      calc (groupVal b k (t.take k) :: packList b k (t.drop k)).drop (a + 1)
          = (packList b k (t.drop k)).drop a := by simp
        _ = packList b k ((t.drop k).drop (k * a)) := hstep
        _ = packList b k (t.drop (k * (a + 1))) := by
            rw [List.drop_drop]
            congr 1
            ring_nf

theorem groupVal_full (b k : Nat) (g : List Nat) (h : g.length = k) :
    groupVal b k g = valBE b g := by
  simp [groupVal, h]

theorem lcmp_singleton (a c : Nat) : lcmp [a] [c] = ncmp a c := by
  simp only [lcmp]
  cases ncmp a c <;> rfl

theorem lcmp_append_right_of_ne (x u w : List Nat) (hlen : x.length = u.length)
    (hne : lcmp x u ≠ .eq) : lcmp x (u ++ w) = lcmp x u := by
  have h := lcmp_append_of_ne x u [] w hlen hne
  rwa [List.append_nil] at h

theorem lcmp_nil_left {z : List Nat} (h : z ≠ []) : lcmp [] z = .lt := by
  cases z with
  | nil => exact absurd rfl h
  | cons c zs => rfl

theorem lcmp_nil_right {z : List Nat} (h : z ≠ []) : lcmp z [] = .gt := by
  cases z with
  | nil => exact absurd rfl h
  | cons c zs => rfl

theorem two_pow_pos' (b : Nat) : 0 < 2 ^ b := pow_pos (by norm_num) b

/-- Core comparison lemma, oriented case: a final short group against a longer
suffix.  With `x` shorter than one group and `y` longer than one group (and no
length-residue hypothesis needed in this orientation), comparing the packed
sequences is comparing the originals. -/
theorem lcmp_packList_short_long (b k : Nat) (hk : 0 < k)
    (x y : List Nat) (hxb : ∀ d ∈ x, d < 2 ^ b) (hyb : ∀ d ∈ y, d < 2 ^ b)
    (hx0 : x ≠ []) (hxk : x.length < k) (hyk : k < y.length) :
    lcmp (packList b k x) (packList b k y) = lcmp x y := by
  have hy0 : y ≠ [] := by
    intro h; rw [h] at hyk; simp at hyk
  have hpackx : packList b k x = [groupVal b k x] := by
    rw [packList_cons b k x hx0 (by omega),
      List.take_of_length_le (le_of_lt hxk),
      List.drop_eq_nil_of_le (le_of_lt hxk), packList_nil]
  have hrest : packList b k (y.drop k) ≠ [] := by
    rw [ne_eq, packList_eq_nil_iff b k hk]
    intro h
    have := congrArg List.length h
    simp only [List.length_drop, List.length_nil] at this
    omega
  have hpacky : packList b k y = groupVal b k (y.take k) :: packList b k (y.drop k) :=
    packList_cons b k y hy0 (by omega)
  have htlen : (y.take k).length = k := by
    simp [List.length_take]; omega
  have hgx : groupVal b k x = valBE b (x ++ List.replicate (k - x.length) 0) :=
    groupVal_eq_valBE_pad b k x
  have hgy : groupVal b k (y.take k) = valBE b (y.take k) :=
    groupVal_full b k _ htlen
  have hxpadb : ∀ d ∈ x ++ List.replicate (k - x.length) 0, d < 2 ^ b := by
    intro d hd
    rcases List.mem_append.mp hd with h | h
    · exact hxb d h
    · rw [List.eq_of_mem_replicate h]; exact two_pow_pos' b
  have htakeb : ∀ d ∈ y.take k, d < 2 ^ b := fun d hd =>
    hyb d (List.mem_of_mem_take hd)
  have hcmp : ncmp (groupVal b k x) (groupVal b k (y.take k)) =
      lcmp (x ++ List.replicate (k - x.length) 0) (y.take k) := by
    rw [hgx, hgy]
    exact ncmp_valBE b _ _
      (by simp only [List.length_append, List.length_replicate, htlen]; omega)
      hxpadb htakeb
  have hsplit : y.take k = y.take x.length ++ (y.take k).drop x.length := by
    conv_lhs => rw [← List.take_append_drop x.length (y.take k)]
    rw [List.take_take, Nat.min_eq_left (le_of_lt hxk)]
  have htakemlen : (y.take x.length).length = x.length := by
    simp [List.length_take]; omega
  have hmidlen : ((y.take k).drop x.length).length = k - x.length := by
    simp [List.length_drop, List.length_take]; omega
  rw [hpackx, hpacky]
  by_cases hord : lcmp x (y.take x.length) = .eq
  · have hxy : x = y.take x.length := (lcmp_eq_iff _ _).mp hord
    have hydrop : y.drop x.length ≠ [] := by
      intro h
      have := congrArg List.length h
      simp only [List.length_drop, List.length_nil] at this
      omega
    have hrhs : lcmp x y = .lt := by
      conv_lhs => rw [← List.take_append_drop x.length y]
      rw [← hxy]
      rw [lcmp_self_append, if_neg hydrop]
    rw [hrhs]
    have hzero : ncmp (groupVal b k x) (groupVal b k (y.take k)) =
        lcmp (List.replicate (k - x.length) 0) ((y.take k).drop x.length) := by
      conv_lhs => rw [hcmp, hsplit, ← hxy, lcmp_append_same]
    have hnotgt := lcmp_replicate_zero_le ((y.take k).drop x.length) hmidlen
    rcases hcase : lcmp (List.replicate (k - x.length) 0) ((y.take k).drop x.length)
        with _ | _ | _
    · rw [hcase] at hzero
      simp only [lcmp, hzero]
    · rw [hcase] at hzero
      simp only [lcmp, hzero]
      exact lcmp_nil_left hrest
    · exact absurd hcase hnotgt
  · have hrhs : lcmp x y = lcmp x (y.take x.length) := by
      conv_lhs => rw [← List.take_append_drop x.length y]
      exact lcmp_append_right_of_ne x (y.take x.length) (y.drop x.length)
        htakemlen.symm hord
    have hlhs : ncmp (groupVal b k x) (groupVal b k (y.take k)) =
        lcmp x (y.take x.length) := by
      rw [hcmp, hsplit]
      exact lcmp_append_of_ne x (y.take x.length) _ _ htakemlen.symm hord
    rw [hrhs]
    rcases hcase : lcmp x (y.take x.length) with _ | _ | _
    · rw [hcase] at hlhs
      simp only [lcmp, hlhs]
    · exact absurd hcase hord
    · rw [hcase] at hlhs
      simp only [lcmp, hlhs]

theorem lcmp_cons_same (a : Nat) (u v : List Nat) :
    lcmp (a :: u) (a :: v) = lcmp u v := by
  have h := lcmp_append_same [a] u v
  simpa using h

/-- Core comparison lemma: packing groups of `k` digits into big-endian
symbols preserves three-way lexicographic comparison of any two digit
sequences whose lengths are congruent modulo `k` (as all suffixes cut at
group boundaries of a common text are). -/
theorem lcmp_packList {b k : Nat} (hk : 0 < k) (x y : List Nat)
    (hxb : ∀ d ∈ x, d < 2 ^ b) (hyb : ∀ d ∈ y, d < 2 ^ b)
    (hmod : x.length % k = y.length % k) :
    lcmp (packList b k x) (packList b k y) = lcmp x y := by
  have H : ∀ n (x y : List Nat), x.length + y.length ≤ n →
      (∀ d ∈ x, d < 2 ^ b) → (∀ d ∈ y, d < 2 ^ b) →
      x.length % k = y.length % k →
      lcmp (packList b k x) (packList b k y) = lcmp x y := by
    intro n
    induction n with
    | zero =>
      intro x y hlen _ _ _
      have hx : x = [] := List.eq_nil_of_length_eq_zero (by omega)
      have hy : y = [] := List.eq_nil_of_length_eq_zero (by omega)
      rw [hx, hy, packList_nil]
    | succ n ih =>
      intro x y hlen hxb hyb hmod
      by_cases hx : x = []
      · subst hx
        rw [packList_nil]
        by_cases hy : y = []
        · rw [hy, packList_nil]
        · have hpy : packList b k y ≠ [] := by
            rw [ne_eq, packList_eq_nil_iff b k hk]
            exact hy
          rw [lcmp_nil_left hpy, lcmp_nil_left hy]
      · by_cases hy : y = []
        · subst hy
          rw [packList_nil]
          have hpx : packList b k x ≠ [] := by
            rw [ne_eq, packList_eq_nil_iff b k hk]
            exact hx
          rw [lcmp_nil_right hpx, lcmp_nil_right hx]
        · have hxpos : 0 < x.length := List.length_pos.mpr hx
          have hypos : 0 < y.length := List.length_pos.mpr hy
          by_cases hxk : x.length < k
          · by_cases hyk : y.length < k
            · -- both sides are a single (short) group of the same length
              have hlen_eq : x.length = y.length := by
                rwa [Nat.mod_eq_of_lt hxk, Nat.mod_eq_of_lt hyk] at hmod
              have hpackx : packList b k x = [groupVal b k x] := by
                rw [packList_cons b k x hx (by omega),
                  List.take_of_length_le (le_of_lt hxk),
                  List.drop_eq_nil_of_le (le_of_lt hxk), packList_nil]
              have hpacky : packList b k y = [groupVal b k y] := by
                rw [packList_cons b k y hy (by omega),
                  List.take_of_length_le (le_of_lt hyk),
                  List.drop_eq_nil_of_le (le_of_lt hyk), packList_nil]
              have hpadxb : ∀ d ∈ x ++ List.replicate (k - x.length) 0, d < 2 ^ b := by
                intro d hd
                rcases List.mem_append.mp hd with h | h
                · exact hxb d h
                · rw [List.eq_of_mem_replicate h]; exact two_pow_pos' b
              have hpadyb : ∀ d ∈ y ++ List.replicate (k - y.length) 0, d < 2 ^ b := by
                intro d hd
                rcases List.mem_append.mp hd with h | h
                · exact hyb d h
                · rw [List.eq_of_mem_replicate h]; exact two_pow_pos' b
              rw [hpackx, hpacky, lcmp_singleton,
                groupVal_eq_valBE_pad b k x, groupVal_eq_valBE_pad b k y,
                ncmp_valBE b _ _
                  (by simp only [List.length_append, List.length_replicate]; omega)
                  hpadxb hpadyb]
              by_cases hord : lcmp x y = .eq
              · have hxy := (lcmp_eq_iff x y).mp hord
                rw [hxy, lcmp_refl, lcmp_refl]
              · exact lcmp_append_of_ne x y _ _ hlen_eq hord
            · have hyk2 : k < y.length := by
                rcases Nat.lt_or_ge k y.length with h | h
                · exact h
                · exfalso
                  have hy_eq : y.length = k := by omega
                  rw [Nat.mod_eq_of_lt hxk, hy_eq, Nat.mod_self] at hmod
                  omega
              exact lcmp_packList_short_long b k hk x y hxb hyb hx hxk hyk2
          · by_cases hyk : y.length < k
            · have hxk2 : k < x.length := by
                rcases Nat.lt_or_ge k x.length with h | h
                · exact h
                · exfalso
                  have hx_eq : x.length = k := by omega
                  rw [Nat.mod_eq_of_lt hyk, hx_eq, Nat.mod_self] at hmod
                  omega
              have hs := lcmp_packList_short_long b k hk y x hyb hxb hy hyk hxk2
              rw [lcmp_swap (packList b k x) (packList b k y), hs, ← lcmp_swap]
            · push_neg at hxk hyk
              rw [packList_cons b k x hx (by omega), packList_cons b k y hy (by omega)]
              have htx : (x.take k).length = k := by
                simp only [List.length_take]; omega
              have hty : (y.take k).length = k := by
                simp only [List.length_take]; omega
              have hcmp : ncmp (groupVal b k (x.take k)) (groupVal b k (y.take k)) =
                  lcmp (x.take k) (y.take k) := by
                rw [groupVal_full b k _ htx, groupVal_full b k _ hty]
                exact ncmp_valBE b _ _ (by rw [htx, hty])
                  (fun d hd => hxb d (List.mem_of_mem_take hd))
                  (fun d hd => hyb d (List.mem_of_mem_take hd))
              by_cases hord : lcmp (x.take k) (y.take k) = .eq
              · have htkeq : x.take k = y.take k := (lcmp_eq_iff _ _).mp hord
                have hgg : groupVal b k (x.take k) = groupVal b k (y.take k) := by
                  rw [htkeq]
                have hdx : (x.drop k).length + (y.drop k).length ≤ n := by
                  simp only [List.length_drop]; omega
                have hmod2 : (x.drop k).length % k = (y.drop k).length % k := by
                  simp only [List.length_drop]
                  rw [← Nat.mod_eq_sub_mod hxk, ← Nat.mod_eq_sub_mod hyk]
                  exact hmod
                have ihd := ih (x.drop k) (y.drop k) hdx
                  (fun d hd => hxb d (List.mem_of_mem_drop hd))
                  (fun d hd => hyb d (List.mem_of_mem_drop hd)) hmod2
                have hrhs : lcmp x y = lcmp (x.drop k) (y.drop k) := by
                  conv_lhs => rw [← List.take_append_drop k x,
                    ← List.take_append_drop k y]
                  rw [htkeq, lcmp_append_same]
                rw [hgg, lcmp_cons_same, ihd, hrhs]
              · have hrhs : lcmp x y = lcmp (x.take k) (y.take k) := by
                  conv_lhs => rw [← List.take_append_drop k x,
                    ← List.take_append_drop k y]
                  exact lcmp_append_of_ne _ _ _ _ (by rw [htx, hty]) hord
                rw [hrhs]
                rcases hcase : lcmp (x.take k) (y.take k) with _ | _ | _
                · rw [hcase] at hcmp
                  simp only [lcmp, hcmp]
                · exact absurd hcase hord
                · rw [hcase] at hcmp
                  simp only [lcmp, hcmp]
  exact H (x.length + y.length) x y le_rfl hxb hyb hmod

/-! ## Bridging the C bit-packer loops to the structural packer -/

theorem valBE_append_singleton (b : Nat) : ∀ (g : List Nat) (d : Nat),
    valBE b (g ++ [d]) = valBE b g * 2 ^ b + d
  | [], d => by simp [valBE]
  | a :: g, d => by
    have ih := valBE_append_singleton b g d
    simp only [List.cons_append, valBE, List.append_eq]
    rw [ih, List.length_append, List.length_cons, List.length_nil, Nat.mul_add, pow_add]
    ring

/-- One pass of the C packing loop over `m ≤ k` digits equals the value of the
corresponding packed symbol.  The accumulator never truncates because
`b * k ≤ W`. -/
theorem fold_or_shifts {b k W : Nat} (hbk : b * k ≤ W) (digit : Nat → Nat) :
    ∀ m, m ≤ k → (∀ j, j < m → digit j < 2 ^ b) →
    (List.range m).foldl
      (fun el j => (el ||| digit j <<< (b * (k - 1 - j))) % 2 ^ W) 0
      = groupVal b k ((List.range m).map digit) := by
  intro m
  induction m with
  | zero => intro _ _; simp [groupVal, valBE]
  | succ m ih =>
    intro hm hd
    have hmk : m < k := hm
    have hdig : ∀ d ∈ (List.range (m + 1)).map digit, d < 2 ^ b := by
      intro d hd2
      rcases List.mem_map.mp hd2 with ⟨j, hj, rfl⟩
      exact hd j (List.mem_range.mp hj)
    rw [List.range_succ, List.foldl_append,
      ih (by omega) (fun j hj => hd j (by omega))]
    simp only [List.foldl_cons, List.foldl_nil]
    have hglen : ((List.range m).map digit).length = m := by simp
    have hgv : groupVal b k ((List.range m).map digit) =
        2 ^ (b * (k - m)) * valBE b ((List.range m).map digit) := by
      rw [groupVal, hglen, Nat.mul_comm]
    have haddlt : digit m <<< (b * (k - 1 - m)) < 2 ^ (b * (k - m)) := by
      rw [Nat.shiftLeft_eq]
      have h1 : digit m < 2 ^ b := hd m (by omega)
      calc digit m * 2 ^ (b * (k - 1 - m))
          < 2 ^ b * 2 ^ (b * (k - 1 - m)) :=
            (Nat.mul_lt_mul_right (two_pow_pos' _)).mpr h1
        _ = 2 ^ (b + b * (k - 1 - m)) := by rw [pow_add]
        _ = 2 ^ (b * (k - m)) := by
            congr 1
            have : k - m = (k - 1 - m) + 1 := by omega
            rw [this]
            ring
    have hor : groupVal b k ((List.range m).map digit) |||
        digit m <<< (b * (k - 1 - m)) =
        groupVal b k ((List.range m).map digit) + digit m <<< (b * (k - 1 - m)) := by
      rw [hgv]
      exact (Nat.mul_add_lt_is_or haddlt _).symm
    have hsumval : groupVal b k ((List.range m).map digit) +
        digit m <<< (b * (k - 1 - m)) =
        groupVal b k ((List.range (m + 1)).map digit) := by
      rw [List.range_succ, List.map_append, List.map_cons, List.map_nil]
      simp only [groupVal, valBE_append_singleton, List.length_append, hglen,
        List.length_cons, List.length_nil, Nat.shiftLeft_eq]
      have h2 : b * (k - m) = b * (k - (m + 1)) + b := by
        have h4 : k - m = (k - (m + 1)) + 1 := by omega
        rw [h4]
        ring
      have h3 : b * (k - 1 - m) = b * (k - (m + 1)) := by
        congr 1
        omega
      rw [h2, h3, pow_add]
      ring
    have hlt : groupVal b k ((List.range (m + 1)).map digit) < 2 ^ W := by
      have hv := valBE_lt b ((List.range (m + 1)).map digit) hdig
      have hlen2 : ((List.range (m + 1)).map digit).length = m + 1 := by simp
      rw [groupVal, hlen2]
      rw [hlen2] at hv
      calc valBE b ((List.range (m + 1)).map digit) * 2 ^ (b * (k - (m + 1)))
          < 2 ^ (b * (m + 1)) * 2 ^ (b * (k - (m + 1))) :=
            (Nat.mul_lt_mul_right (two_pow_pos' _)).mpr hv
        _ = 2 ^ (b * (m + 1) + b * (k - (m + 1))) := by rw [pow_add]
        _ = 2 ^ (b * k) := by
            congr 1
            rw [← Nat.mul_add]
            congr 1
            omega
        _ ≤ 2 ^ W := Nat.pow_le_pow_right (by norm_num) hbk
    rw [hor, hsumval, Nat.mod_eq_of_lt hlt, ← List.range_succ]

theorem packList_getElem {b k : Nat} (hk : 0 < k) (r : List Nat) (i : Nat)
    (hi : i < (packList b k r).length) :
    (packList b k r)[i] = groupVal b k ((r.drop (k * i)).take k) := by
  have hdrop := packList_drop b hk i r
  have hne : r.drop (k * i) ≠ [] := by
    intro h
    rw [h, packList_nil] at hdrop
    have := congrArg List.length hdrop
    simp only [List.length_drop, List.length_nil] at this
    omega
  have hcons := packList_cons b k (r.drop (k * i)) hne (by omega)
  rw [← List.getD_eq_getElem _ 0 hi]
  have hgd : (packList b k r).getD i 0 = ((packList b k r).drop i).getD 0 0 := by
    rw [List.getD_eq_getElem?_getD, List.getD_eq_getElem?_getD,
      List.getElem?_drop, Nat.add_zero]
  rw [hgd, hdrop, hcons, List.getD_cons_zero]

/-- The C bit-packing loop (any container width `W` with `b·k ≤ W`) computes
exactly the structural packer applied to the rank sequence. -/
theorem bitpack_core_eq_packList (W : Nat) (text : List Nat) (k pl : Nat) (dna : Bool)
    (hk : 0 < k) (hpl : pl = (text.length + k - 1) / k)
    (hW : Benchmark.bits_per_char dna * k ≤ W)
    (hrank : ∀ c ∈ text, Benchmark.rank dna c < 2 ^ Benchmark.bits_per_char dna) :
    Benchmark.bitpack_core W text text.length k pl dna
      = packList (Benchmark.bits_per_char dna) k (text.map (Benchmark.rank dna)) := by
  by_cases h0 : text = []
  · subst h0
    have hpl0 : pl = 0 := by
      rw [hpl]
      simp only [List.length_nil]
      exact Nat.div_eq_of_lt (by omega)
    subst hpl0
    simp [Benchmark.bitpack_core, packList_nil]
  · have hnpos : 0 < text.length := List.length_pos.mpr h0
    have hlen0 : ¬(text.length = 0) := by omega
    obtain ⟨q, hqdef⟩ : ∃ q, (text.length - 1) / k = q := ⟨_, rfl⟩
    obtain ⟨r, hrdef⟩ : ∃ r, (text.length - 1) % k = r := ⟨_, rfl⟩
    have hq : k * q + r = text.length - 1 := by
      rw [← hqdef, ← hrdef]
      exact Nat.div_add_mod _ k
    have hrlt : r < k := by
      rw [← hrdef]
      exact Nat.mod_lt _ hk
    have hplq : pl = q + 1 := by
      rw [hpl, show text.length + k - 1 = (text.length - 1) + k by omega,
        Nat.add_div_right _ hk, hqdef]
    have hpllen : (Benchmark.bitpack_core W text text.length k pl dna).length = pl := by
      unfold Benchmark.bitpack_core
      rw [if_neg hlen0]
      simp only [List.length_append, List.length_map, List.length_range,
        List.length_cons, List.length_nil]
      omega
    have hplen2 : (packList (Benchmark.bits_per_char dna) k
        (text.map (Benchmark.rank dna))).length = pl := by
      rw [packList_length _ hk, List.length_map, ← hpl]
    have hgetslice : ∀ (base m : Nat), base + m ≤ text.length →
        (List.range m).map (fun j => Benchmark.rank dna (text.getD (base + j) 0)) =
        (((text.map (Benchmark.rank dna)).drop base).take m) := by
      intro base m hbm
      apply List.ext_getElem
      · simp only [List.length_map, List.length_range, List.length_take,
          List.length_drop]
        omega
      · intro j hj1 hj2
        simp only [List.length_map, List.length_range] at hj1
        simp only [List.getElem_map, List.getElem_range, List.getElem_take,
          List.getElem_drop]
        rw [List.getD_eq_getElem text 0 (by omega)]
    apply List.ext_getElem (by rw [hpllen, hplen2])
    intro i hi1 hi2
    have hi : i < pl := hpllen ▸ hi1
    rw [packList_getElem hk _ i (by omega)]
    rw [← List.getD_eq_getElem _ 0 hi1]
    unfold Benchmark.bitpack_core
    rw [if_neg hlen0, hrdef]
    by_cases hil : i < pl - 1
    · rw [List.getD_append _ _ _ _ (by
        simp only [List.length_map, List.length_range]; omega)]
      rw [List.getD_eq_getElem _ 0 (by
        simp only [List.length_map, List.length_range]; omega)]
      simp only [List.getElem_map, List.getElem_range]
      have hbase : i * k + k ≤ text.length := by
        have h5 : i + 1 ≤ q := by omega
        have h6 : (i + 1) * k ≤ q * k := Nat.mul_le_mul_right _ h5
        have h7 : q * k = k * q := Nat.mul_comm _ _
        have h8 : (i + 1) * k = i * k + k := by ring
        omega
      have hdig : ∀ j, j < k →
          Benchmark.rank dna (text.getD (i * k + j) 0)
            < 2 ^ Benchmark.bits_per_char dna := by
        intro j hj
        rw [List.getD_eq_getElem text 0 (by omega)]
        exact hrank _ (List.getElem_mem _)
      rw [fold_or_shifts hW _ k le_rfl hdig, hgetslice (i * k) k hbase,
        Nat.mul_comm k i]
    · have hiq : i = q := by omega
      rw [List.getD_append_right _ _ _ _ (by
        simp only [List.length_map, List.length_range]; omega)]
      simp only [List.length_map, List.length_range]
      have hzero : i - (pl - 1) = 0 := by omega
      rw [hzero, List.getD_cons_zero]
      rw [hplq, Nat.add_sub_cancel, hiq]
      have hbase2 : k * q + (r + 1) ≤ text.length := by omega
      have hdig2 : ∀ j, j < r + 1 →
          Benchmark.rank dna (text.getD (k * q + j) 0)
            < 2 ^ Benchmark.bits_per_char dna := by
        intro j hj
        rw [List.getD_eq_getElem text 0 (by omega)]
        exact hrank _ (List.getElem_mem _)
      rw [fold_or_shifts hW _ (r + 1) (by omega) hdig2,
        hgetslice (k * q) (r + 1) hbase2]
      have hlend : ((text.map (Benchmark.rank dna)).drop (k * q)).length
          = r + 1 := by
        simp only [List.length_drop, List.length_map]
        omega
      rw [List.take_of_length_le (by rw [hlend]),
        List.take_of_length_le (by rw [hlend]; omega)]

/-! ## The multiples of k, as packed positions and as filtered positions -/

theorem range_map_mul_eq_filter {k : Nat} (hk : 0 < k) :
    ∀ n : Nat, (List.range ((n + k - 1) / k)).map (· * k)
      = (List.range n).filter (fun x => x % k == 0) := by
  intro n
  induction n with
  | zero =>
    have h0 : (0 + k - 1) / k = 0 := Nat.div_eq_of_lt (by omega)
    rw [h0]
    rfl
  | succ n ih =>
    obtain ⟨q, hqdef⟩ : ∃ q, n / k = q := ⟨_, rfl⟩
    obtain ⟨r, hrdef⟩ : ∃ r, n % k = r := ⟨_, rfl⟩
    have hq : k * q + r = n := by
      rw [← hqdef, ← hrdef]
      exact Nat.div_add_mod _ k
    have hrlt : r < k := by
      rw [← hrdef]
      exact Nat.mod_lt _ hk
    rw [List.range_succ, List.filter_append]
    by_cases hd : r = 0
    · have hn : n = k * q := by omega
      have hpl0 : (n + k - 1) / k = q := by
        rw [hn, show k * q + k - 1 = k * q + (k - 1) by omega,
          Nat.mul_add_div hk, Nat.div_eq_of_lt (by omega)]
        omega
      have hpl1 : (n + 1 + k - 1) / k = q + 1 := by
        rw [show n + 1 + k - 1 = n + k by omega, Nat.add_div_right _ hk, hqdef]
      have hfil2 : [n].filter (fun x => x % k == 0) = [n] := by
        simp only [List.filter_cons, List.filter_nil]
        rw [hrdef]
        simp [hd]
      rw [hpl1, List.range_succ, List.map_append]
      rw [show (List.range q).map (· * k)
          = (List.range n).filter (fun x => x % k == 0) from by
        rw [← hpl0]; exact ih]
      rw [hfil2]
      congr 1
      simp only [List.map_cons, List.map_nil]
      have hcomm : q * k = k * q := Nat.mul_comm _ _
      congr 1
      omega
    · have hlin : k * (q + 1) = k * q + k := by ring
      have hpl0 : (n + k - 1) / k = q + 1 := by
        rw [show n + k - 1 = k * (q + 1) + (r - 1) by omega,
          Nat.mul_add_div hk, Nat.div_eq_of_lt (by omega)]
      have hpl1 : (n + 1 + k - 1) / k = q + 1 := by
        rw [show n + 1 + k - 1 = k * (q + 1) + r by omega,
          Nat.mul_add_div hk, Nat.div_eq_of_lt (by omega)]
      have hfil : [n].filter (fun x => x % k == 0) = [] := by
        simp only [List.filter_cons, List.filter_nil]
        rw [hrdef]
        simp [hd]
      rw [hpl1, hfil, List.append_nil, ← hpl0, ih]

/-- A symbol-wise comparison-preserving map preserves lexicographic
comparison. -/
theorem lcmp_map : ∀ (f : Nat → Nat) (x y : List Nat),
    (∀ a ∈ x, ∀ c ∈ y, ncmp (f a) (f c) = ncmp a c) →
    lcmp (x.map f) (y.map f) = lcmp x y
  | _, [], [], _ => by simp [lcmp]
  | _, [], _ :: _, _ => by simp [lcmp]
  | _, _ :: _, [], _ => by simp [lcmp]
  | f, a :: x, c :: y, h => by
    have hh : ncmp (f a) (f c) = ncmp a c := h a (by simp) c (by simp)
    simp only [List.map_cons, lcmp, hh]
    rcases ncmp a c with _ | _ | _
    · rfl
    · exact lcmp_map f x y (fun a2 ha2 c2 hc2 => h a2 (by simp [ha2]) c2 (by simp [hc2]))
    · rfl

theorem mul_lt_of_lt_ceil_div {k n a : Nat} (hk : 0 < k)
    (ha : a < (n + k - 1) / k) : k * a < n := by
  have hn : 0 < n := by
    by_contra h
    push_neg at h
    have h0 : n = 0 := by omega
    rw [h0, Nat.div_eq_of_lt (by omega)] at ha
    omega
  have hpl : (n + k - 1) / k = (n - 1) / k + 1 := by
    rw [show n + k - 1 = (n - 1) + k by omega, Nat.add_div_right _ hk]
  rw [hpl] at ha
  have h1 : a ≤ (n - 1) / k := by omega
  have h2 : k * a ≤ k * ((n - 1) / k) := Nat.mul_le_mul_left _ h1
  have h3 : k * ((n - 1) / k) ≤ n - 1 := Nat.mul_div_le _ _
  omega

/-- The optimized pipeline computed on the suffix array of the packed sequence
and rescaled equals the subsample of the full suffix array: the positions
divisible by `k` in suffix order.  `f` is the rank map (comparison-preserving
on the text), `b` the bits per character. -/
theorem suffix_array_packed_scaled (k b : Nat) (hk : 0 < k) (text : List Nat)
    (f : Nat → Nat)
    (hf : ∀ a ∈ text, ∀ c ∈ text, ncmp (f a) (f c) = ncmp a c)
    (hb : ∀ c ∈ text, f c < 2 ^ b) :
    (suffix_array (packList b k (text.map f))).map (· * k)
      = (suffix_array text).filter (fun x => x % k == 0) := by
  have hrb : ∀ d ∈ text.map f, d < 2 ^ b := by
    intro d hd
    rcases List.mem_map.mp hd with ⟨c, hc, rfl⟩
    exact hb c hc
  have hPlen : (packList b k (text.map f)).length = (text.length + k - 1) / k := by
    rw [packList_length b hk, List.length_map]
  haveI : IsAntisymm Nat (suffLT text) := ⟨fun a c h1 h2 => by
    unfold suffLT at h1 h2
    have hs := lcmp_swap (text.drop a) (text.drop c)
    rw [h1, h2] at hs
    cases hs⟩
  -- the key pointwise bridge between packed-suffix order and text-suffix order
  have hbridge : ∀ a2 ∈ suffix_array (packList b k (text.map f)),
      ∀ c2 ∈ suffix_array (packList b k (text.map f)),
      suffLT (packList b k (text.map f)) a2 c2 → suffLT text (a2 * k) (c2 * k) := by
    intro a2 ha2 c2 hc2 hlt
    have ha2m : a2 < (packList b k (text.map f)).length :=
      List.mem_range.mp (((suffix_array_perm _).mem_iff).mp ha2)
    have hc2m : c2 < (packList b k (text.map f)).length :=
      List.mem_range.mp (((suffix_array_perm _).mem_iff).mp hc2)
    have hka : k * a2 < text.length := by
      apply mul_lt_of_lt_ceil_div hk
      rw [← hPlen]
      exact ha2m
    have hkc : k * c2 < text.length := by
      apply mul_lt_of_lt_ceil_div hk
      rw [← hPlen]
      exact hc2m
    unfold suffLT at hlt ⊢
    have hda := packList_drop b hk a2 (text.map f)
    have hdc := packList_drop b hk c2 (text.map f)
    rw [hda, hdc] at hlt
    have hmodeq : ((text.map f).drop (k * a2)).length % k
        = ((text.map f).drop (k * c2)).length % k := by
      simp only [List.length_drop, List.length_map]
      have h1 : (text.length - k * a2) % k = text.length % k :=
        Nat.sub_mul_mod (by omega)
      have h2 : (text.length - k * c2) % k = text.length % k :=
        Nat.sub_mul_mod (by omega)
      rw [h1, h2]
    rw [lcmp_packList hk _ _
      (fun d hd => hrb d (List.mem_of_mem_drop hd))
      (fun d hd => hrb d (List.mem_of_mem_drop hd)) hmodeq] at hlt
    rw [← List.map_drop, ← List.map_drop] at hlt
    rw [lcmp_map f _ _ (fun x hx c3 hc3 =>
      hf x (List.mem_of_mem_drop hx) c3 (List.mem_of_mem_drop hc3))] at hlt
    rw [Nat.mul_comm a2 k, Nat.mul_comm c2 k]
    exact hlt
  apply List.eq_of_perm_of_sorted (r := suffLT text)
  · have p1 : (suffix_array (packList b k (text.map f))).map (· * k) |>.Perm
        ((List.range (packList b k (text.map f)).length).map (· * k)) :=
      (suffix_array_perm _).map _
    have p2 : (List.range (packList b k (text.map f)).length).map (· * k)
        = (List.range text.length).filter (fun x => x % k == 0) := by
      rw [hPlen]
      exact range_map_mul_eq_filter hk text.length
    have p3 : ((suffix_array text).filter (fun x => x % k == 0)).Perm
        ((List.range text.length).filter (fun x => x % k == 0)) :=
      (suffix_array_perm text).filter _
    exact (p2 ▸ p1).trans p3.symm
  · rw [List.Sorted, List.pairwise_map]
    exact List.Pairwise.imp_of_mem
      (fun ha hc h => hbridge _ ha _ hc h) (suffix_array_sorted_lt _)
  · exact List.Pairwise.filter _ (suffix_array_sorted_lt text)

/-! ## The two character alphabets of the driver -/

/-- Bytes of DNA mode's fixed alphabet: A, C, G, T. -/
def validDNA (c : Nat) : Prop := c = 65 ∨ c = 67 ∨ c = 71 ∨ c = 84

/-- Bytes on which the protein rank table is injective and monotone and fits 5
bits: the explicit `$` and `-` cases plus the letters `A`..`Z`. -/
def validAA (c : Nat) : Prop := c = 36 ∨ c = 45 ∨ (65 ≤ c ∧ c ≤ 90)

/-- Valid input byte for the mode selected by the `dna` flag. -/
def validChar (dna : Bool) (c : Nat) : Prop :=
  if dna then validDNA c else validAA c

instance validDNA.dec (c : Nat) : Decidable (validDNA c) := by
  unfold validDNA
  infer_instance

instance validAA.dec (c : Nat) : Decidable (validAA c) := by
  unfold validAA
  infer_instance

instance validChar.dec (dna : Bool) (c : Nat) : Decidable (validChar dna c) := by
  unfold validChar
  cases dna <;> simp <;> infer_instance

theorem get_rank_dna_lt (c : Nat) : Bitpacking.get_rank_dna c < 4 := by
  unfold Bitpacking.get_rank_dna
  split_ifs <;> norm_num

theorem get_rank_aa_interval {c : Nat} (h1 : 65 ≤ c) (h2 : c ≤ 90) :
    Bitpacking.get_rank_aa c = c - 63 := by
  unfold Bitpacking.get_rank_aa
  rw [if_neg (by omega), if_neg (by omega)]
  rw [Nat.mod_eq_sub_mod (by omega), show c + 193 - 256 = c - 63 by omega,
    Nat.mod_eq_of_lt (by omega)]

theorem get_rank_aa_lt {c : Nat} (h : validAA c) : Bitpacking.get_rank_aa c < 32 := by
  rcases h with rfl | rfl | ⟨h1, h2⟩
  · decide
  · decide
  · rw [get_rank_aa_interval h1 h2]
    omega

theorem ncmp_get_rank_dna (a c : Nat) (ha : validDNA a) (hc : validDNA c) :
    ncmp (Bitpacking.get_rank_dna a) (Bitpacking.get_rank_dna c) = ncmp a c := by
  rcases ha with rfl | rfl | rfl | rfl <;> rcases hc with rfl | rfl | rfl | rfl <;> decide

theorem ncmp_get_rank_aa (a c : Nat) (ha : validAA a) (hc : validAA c) :
    ncmp (Bitpacking.get_rank_aa a) (Bitpacking.get_rank_aa c) = ncmp a c := by
  rcases ha with rfl | rfl | ⟨h1a, h2a⟩ <;> rcases hc with rfl | rfl | ⟨h1c, h2c⟩
  · decide
  · decide
  · rw [get_rank_aa_interval h1c h2c]
    rw [show Bitpacking.get_rank_aa 36 = 0 from rfl]
    rw [(ncmp_lt_iff _ _).mpr (by omega), (ncmp_lt_iff _ _).mpr (by omega)]
  · decide
  · decide
  · rw [get_rank_aa_interval h1c h2c]
    rw [show Bitpacking.get_rank_aa 45 = 1 from rfl]
    rw [(ncmp_lt_iff _ _).mpr (by omega), (ncmp_lt_iff _ _).mpr (by omega)]
  · rw [get_rank_aa_interval h1a h2a]
    rw [show Bitpacking.get_rank_aa 36 = 0 from rfl]
    rw [(ncmp_gt_iff _ _).mpr (by omega), (ncmp_gt_iff _ _).mpr (by omega)]
  · rw [get_rank_aa_interval h1a h2a]
    rw [show Bitpacking.get_rank_aa 45 = 1 from rfl]
    rw [(ncmp_gt_iff _ _).mpr (by omega), (ncmp_gt_iff _ _).mpr (by omega)]
  · rw [get_rank_aa_interval h1a h2a, get_rank_aa_interval h1c h2c]
    rcases Nat.lt_trichotomy a c with h | h | h
    · rw [(ncmp_lt_iff _ _).mpr h, (ncmp_lt_iff _ _).mpr (by omega)]
    · subst h
      rw [(ncmp_eq_iff _ _).mpr rfl, (ncmp_eq_iff _ _).mpr rfl]
    · rw [(ncmp_gt_iff _ _).mpr h, (ncmp_gt_iff _ _).mpr (by omega)]

theorem ncmp_rank (dna : Bool) (a c : Nat) (ha : validChar dna a)
    (hc : validChar dna c) :
    ncmp (Benchmark.rank dna a) (Benchmark.rank dna c) = ncmp a c := by
  cases dna
  · exact ncmp_get_rank_aa a c (by simpa [validChar] using ha)
      (by simpa [validChar] using hc)
  · exact ncmp_get_rank_dna a c (by simpa [validChar] using ha)
      (by simpa [validChar] using hc)

theorem rank_lt_two_pow_bits (dna : Bool) (c : Nat) (h : validChar dna c) :
    Benchmark.rank dna c < 2 ^ Benchmark.bits_per_char dna := by
  cases dna
  · exact get_rank_aa_lt (by simpa [validChar] using h)
  · exact get_rank_dna_lt c

/-- The value of one packed symbol over digits `digit 0, …, digit (m-1)`,
written as the spec's per-slot sum `Σⱼ digit j · 2^(b·(k−1−j))`. -/
theorem groupVal_range_sum (b k : Nat) (digit : Nat → Nat) :
    ∀ m, m ≤ k → groupVal b k ((List.range m).map digit)
      = ∑ j ∈ Finset.range m, digit j * 2 ^ (b * (k - 1 - j)) := by
  intro m
  induction m with
  | zero => intro _; simp [groupVal, valBE]
  | succ m ih =>
    intro hm
    rw [Finset.sum_range_succ, ← ih (by omega), List.range_succ, List.map_append,
      List.map_cons, List.map_nil]
    have hglen : ((List.range m).map digit).length = m := by simp
    simp only [groupVal, valBE_append_singleton, List.length_append, hglen,
      List.length_cons, List.length_nil]
    have h2 : b * (k - m) = b * (k - (m + 1)) + b := by
      have h4 : k - m = (k - (m + 1)) + 1 := by omega
      rw [h4]
      ring
    have h3 : b * (k - 1 - m) = b * (k - (m + 1)) := by
      congr 1
      omega
    rw [h3, h2, pow_add]
    ring

/-- Claim C3 counterexample: the `uint8_t` accumulator truncates.  With two
characters of rank 1, `k = 2` and `b = 8` (`packed_len = 1`), the claimed sum
for the final symbol is `1·2^8 + 1·2^0 = 257`, but `bitpack_text_8` stores the
8-bit truncation `[1]`. -/
theorem claim_C3_counterexample :
    Bitpacking.bitpack_text_8 [1, 1] 2 2 1 (fun c => c) 8 = [1] ∧
    (1 * 2 ^ (8 * (2 - 1 - 0)) + 1 * 2 ^ (8 * (2 - 1 - 1)) : Nat) = 257 ∧
    (1 : Nat) ≠ 257 :=
  ⟨by decide, by decide, by decide⟩

/-- Claim C3 (amended): for every text of length `n > 0`, sparseness factor
`k ≥ 1`, bit width `b` and rank table with `b·k ≤ 8` and all ranks below
`2^b`, and `packed_len = ⌈n/k⌉`, `bitpack_text_8` returns an array with
`packed[i] = Σⱼ∈[0,k) rank(text[i·k+j])·2^(b·(k−1−j))` for every full group,
and in the final symbol only the positions from `last_start = k·(packed_len−1)`
to `n` contribute while the remaining least-significant slots are zero (the
final symbol is divisible by `2^(b·(k−tail))`, `tail` the number of remaining
characters). -/
theorem claim_C3_packed_symbol_values (text : List Nat) (k pl b : Nat)
    (char_to_rank : Nat → Nat)
    (hn : 0 < text.length) (hk : 0 < k)
    (hpl : pl = (text.length + k - 1) / k)
    (hbk : b * k ≤ 8)
    (hrank : ∀ c ∈ text, char_to_rank c < 2 ^ b) :
    (∀ i, i < pl - 1 →
      (Bitpacking.bitpack_text_8 text text.length k pl char_to_rank b).getD i 0
        = ∑ j ∈ Finset.range k,
            char_to_rank (text.getD (i * k + j) 0) * 2 ^ (b * (k - 1 - j))) ∧
    (Bitpacking.bitpack_text_8 text text.length k pl char_to_rank b).getD (pl - 1) 0
        = ∑ j ∈ Finset.range ((text.length - 1) % k + 1),
            char_to_rank (text.getD (k * (pl - 1) + j) 0) * 2 ^ (b * (k - 1 - j)) ∧
    (Bitpacking.bitpack_text_8 text text.length k pl char_to_rank b).getD (pl - 1) 0
        % 2 ^ (b * (k - ((text.length - 1) % k + 1))) = 0 := by
  have hlen0 : ¬(text.length = 0) := by omega
  obtain ⟨q, hqdef⟩ : ∃ q, (text.length - 1) / k = q := ⟨_, rfl⟩
  obtain ⟨r, hrdef⟩ : ∃ r, (text.length - 1) % k = r := ⟨_, rfl⟩
  have hq : k * q + r = text.length - 1 := by
    rw [← hqdef, ← hrdef]
    exact Nat.div_add_mod _ k
  have hrlt : r < k := by
    rw [← hrdef]
    exact Nat.mod_lt _ hk
  have hplq : pl = q + 1 := by
    rw [hpl, show text.length + k - 1 = (text.length - 1) + k by omega,
      Nat.add_div_right _ hk, hqdef]
  have hbase : k * (pl - 1) = k * q := by
    rw [hplq, Nat.add_sub_cancel]
  have hlast :
      (Bitpacking.bitpack_text_8 text text.length k pl char_to_rank b).getD (pl - 1) 0
      = groupVal b k ((List.range ((text.length - 1) % k + 1)).map
          (fun j => char_to_rank (text.getD (k * (pl - 1) + j) 0))) := by
    unfold Bitpacking.bitpack_text_8
    rw [if_neg hlen0]
    rw [List.getD_append_right _ _ _ _ (by
      simp only [List.length_map, List.length_range]; omega)]
    simp only [List.length_map, List.length_range, Nat.sub_self, List.getD_cons_zero]
    rw [hrdef]
    have hdig2 : ∀ j, j < r + 1 →
        char_to_rank (text.getD (k * (pl - 1) + j) 0) < 2 ^ b := by
      intro j hj
      rw [List.getD_eq_getElem text 0 (by rw [hbase]; omega)]
      exact hrank _ (List.getElem_mem _)
    exact fold_or_shifts hbk _ (r + 1) (by omega) hdig2
  refine ⟨?_, ?_, ?_⟩
  · intro i hil
    have hiq : i < q := by omega
    unfold Bitpacking.bitpack_text_8
    rw [if_neg hlen0]
    rw [List.getD_append _ _ _ _ (by
      simp only [List.length_map, List.length_range]; omega)]
    rw [List.getD_eq_getElem _ 0 (by
      simp only [List.length_map, List.length_range]; omega)]
    simp only [List.getElem_map, List.getElem_range]
    have hbase1 : i * k + k ≤ text.length := by
      have h5 : i + 1 ≤ q := by omega
      have h6 : (i + 1) * k ≤ q * k := Nat.mul_le_mul_right _ h5
      have h7 : q * k = k * q := Nat.mul_comm _ _
      have h8 : (i + 1) * k = i * k + k := by ring
      omega
    have hdig : ∀ j, j < k → char_to_rank (text.getD (i * k + j) 0) < 2 ^ b := by
      intro j hj
      rw [List.getD_eq_getElem text 0 (by omega)]
      exact hrank _ (List.getElem_mem _)
    rw [fold_or_shifts hbk _ k le_rfl hdig]
    exact groupVal_range_sum b k _ k le_rfl
  · rw [hlast]
    exact groupVal_range_sum b k _ _ (by rw [hrdef]; omega)
  · rw [hlast]
    simp only [groupVal, List.length_map, List.length_range]
    exact Nat.mul_mod_left _ _

theorem claim_C3_witness :
    (0 < ([1, 2, 3] : List Nat).length ∧ 0 < 2 ∧
      2 = (([1, 2, 3] : List Nat).length + 2 - 1) / 2 ∧ 2 * 2 ≤ 8 ∧
      ∀ c ∈ ([1, 2, 3] : List Nat), c < 2 ^ 2) ∧
    ((∀ i, i < 2 - 1 →
        (Bitpacking.bitpack_text_8 [1, 2, 3] 3 2 2 (fun c => c) 2).getD i 0
          = ∑ j ∈ Finset.range 2,
              ([1, 2, 3] : List Nat).getD (i * 2 + j) 0 * 2 ^ (2 * (2 - 1 - j))) ∧
      (Bitpacking.bitpack_text_8 [1, 2, 3] 3 2 2 (fun c => c) 2).getD (2 - 1) 0
          = ∑ j ∈ Finset.range ((3 - 1) % 2 + 1),
              ([1, 2, 3] : List Nat).getD (2 * (2 - 1) + j) 0 * 2 ^ (2 * (2 - 1 - j)) ∧
      (Bitpacking.bitpack_text_8 [1, 2, 3] 3 2 2 (fun c => c) 2).getD (2 - 1) 0
          % 2 ^ (2 * (2 - ((3 - 1) % 2 + 1))) = 0) :=
  ⟨⟨by decide, by decide, by decide, by decide, by decide⟩,
    claim_C3_packed_symbol_values [1, 2, 3] 2 2 2 (fun c => c)
      (by decide) (by decide) (by decide) (by decide) (by decide)⟩

/-! ## Claim C10: compress_sa packs the big-endian bit stream in place -/

/-- The big-endian packed bit stream described by the claim: concatenate the
`b`-bit big-endian representations of the entries, pad on the right to a
multiple of 64 bits, and cut into 64-bit words. -/
def packedWords (b : Nat) (sa : List Nat) : List Nat :=
  (List.range ((sa.length * b + 63) / 64)).map (fun j =>
    (valBE b sa * 2 ^ (64 * ((sa.length * b + 63) / 64) - sa.length * b))
      >>> (64 * ((sa.length * b + 63) / 64 - 1 - j)) % 2 ^ 64)

theorem mul_pow_mod_eq (N r s : Nat) :
    (N * 2 ^ s) % 2 ^ (r + s) = (N % 2 ^ r) * 2 ^ s := by
  rw [pow_add, Nat.mul_mod_mul_right]

theorem concat_mod (N x b r : Nat) (hx : x < 2 ^ b) :
    (N * 2 ^ b + x) % 2 ^ (r + b) = (N % 2 ^ r) * 2 ^ b + x := by
  conv_lhs => rw [← Nat.div_add_mod N (2 ^ r)]
  have hsplit : (2 ^ r * (N / 2 ^ r) + N % 2 ^ r) * 2 ^ b + x
      = 2 ^ r * 2 ^ b * (N / 2 ^ r) + ((N % 2 ^ r) * 2 ^ b + x) := by ring
  rw [hsplit, pow_add, Nat.mul_add_mod]
  refine Nat.mod_eq_of_lt ?_
  calc (N % 2 ^ r) * 2 ^ b + x
      < (N % 2 ^ r) * 2 ^ b + 2 ^ b := by omega
    _ = (N % 2 ^ r + 1) * 2 ^ b := by ring
    _ ≤ 2 ^ r * 2 ^ b :=
        Nat.mul_le_mul_right _ (Nat.succ_le_of_lt (Nat.mod_lt _ (two_pow_pos' r)))

theorem concat_div (N x b σ : Nat) (h : σ ≤ b) :
    (N * 2 ^ b + x) / 2 ^ σ = N * 2 ^ (b - σ) + x / 2 ^ σ := by
  have hpow : (2 : Nat) ^ b = 2 ^ σ * 2 ^ (b - σ) := by
    rw [← pow_add]
    congr 1
    omega
  rw [show N * 2 ^ b = 2 ^ σ * (N * 2 ^ (b - σ)) by rw [hpow]; ring]
  rw [Nat.mul_add_div (two_pow_pos' σ)]

theorem concat_shiftRight (N x b t : Nat) (hx : x < 2 ^ b) :
    (N * 2 ^ b + x) >>> (b + t) = N >>> t := by
  rw [Nat.shiftRight_eq_div_pow, Nat.shiftRight_eq_div_pow, pow_add,
    ← Nat.div_div_eq_div_mul]
  congr 1
  rw [show N * 2 ^ b = 2 ^ b * N from Nat.mul_comm _ _,
    Nat.mul_add_div (two_pow_pos' b), Nat.div_eq_of_lt hx]
  omega

theorem mul_pow_div (a s t : Nat) (h : s ≤ t) :
    a * 2 ^ s / 2 ^ t = a / 2 ^ (t - s) := by
  have hpow : (2 : Nat) ^ t = 2 ^ s * 2 ^ (t - s) := by
    rw [← pow_add]
    congr 1
    omega
  rw [hpow, ← Nat.div_div_eq_div_mul, Nat.mul_div_cancel _ (two_pow_pos' s)]

/-- Loop invariant of `compress_sa` after the entries of `p` have been
processed: `f` words have been flushed, each the corresponding 64-bit slice of
the big-endian concatenation `valBE b p`, the accumulator holds the remaining
`p.length·b − 64·f` bits left-aligned, and `shift_element` tracks the bit
budget. -/
def CompressInv (b : Nat) (p : List Nat) (s : CompressState) : Prop :=
  ∃ f,
    s.out = (List.range f).map (fun j =>
      (valBE b p >>> (p.length * b - 64 * (j + 1))) % 2 ^ 64) ∧
    64 * f ≤ p.length * b ∧
    p.length * b ≤ 64 * f + 64 ∧
    (1 ≤ p.length → 64 * f < p.length * b) ∧
    s.shift + (p.length * b : Nat) = 64 - b + 64 * (f : Int) ∧
    s.element = (valBE b p % 2 ^ (p.length * b - 64 * f))
      * 2 ^ (64 - (p.length * b - 64 * f))

theorem compress_foldl_inv (b : Nat) (hb : 0 < b) (hb64 : b < 64) :
    ∀ p : List Nat, (∀ x ∈ p, x < 2 ^ b) →
    CompressInv b p (p.foldl (compress_step b)
      { out := [], element := 0, shift := (64 : Int) - b }) := by
  intro p
  induction p using List.reverseRecOn with
  | nil =>
    intro _
    refine ⟨0, rfl, by simp, by simp, by simp, by simp, by simp [valBE]⟩
  | append_singleton p x ih =>
    intro hpx
    have hx : x < 2 ^ b := hpx x (by simp)
    rw [List.foldl_append, List.foldl_cons, List.foldl_nil]
    obtain ⟨f, hout, h1, h2, h3, hshift, helem⟩ :=
      ih (fun y hy => hpx y (by simp [hy]))
    have hN' : valBE b (p ++ [x]) = valBE b p * 2 ^ b + x :=
      valBE_append_singleton b p x
    have hlen' : (p ++ [x]).length = p.length + 1 := by simp
    have hnb' : (p.length + 1) * b = p.length * b + b := by ring
    have hchunk : ∀ j, j < f →
        (valBE b (p ++ [x]) >>> ((p.length + 1) * b - 64 * (j + 1))) % 2 ^ 64
          = (valBE b p >>> (p.length * b - 64 * (j + 1))) % 2 ^ 64 := by
      intro j hj
      have h64j : 64 * (j + 1) ≤ 64 * f := by omega
      rw [hN', show (p.length + 1) * b - 64 * (j + 1)
          = b + (p.length * b - 64 * (j + 1)) by rw [hnb']; omega,
        concat_shiftRight _ _ _ _ hx]
    by_cases hflush : (p.foldl (compress_step b)
        { out := [], element := 0, shift := (64 : Int) - b }).shift < 0
    · -- the next entry straddles a word boundary: a word is flushed first
      have hcond : 64 < (p.length * b - 64 * f) + b := by omega
      have hr64 : p.length * b - 64 * f ≤ 64 := by omega
      have htn1 : (-(p.foldl (compress_step b)
          { out := [], element := 0, shift := (64 : Int) - b }).shift).toNat
          = (p.length * b - 64 * f) + b - 64 := by omega
      have htn2 : ((p.foldl (compress_step b)
          { out := [], element := 0, shift := (64 : Int) - b }).shift + 64).toNat
          = 64 - ((p.length * b - 64 * f) + b - 64) := by omega
      refine ⟨f + 1, ?_, ?_, ?_, ?_, ?_, ?_⟩ <;>
        simp only [compress_step, if_pos hflush, hlen', List.length_append]
      · rw [List.range_succ, List.map_append, List.map_cons, List.map_nil, hout]
        congr 1
        · exact List.map_congr_left (fun j hj =>
            (hchunk j (List.mem_range.mp hj)).symm)
        · -- the flushed word is the 64-bit slice at offset 64·f of the stream
          congr 1
          rw [htn1, hN']
          rw [show (p.length + 1) * b - 64 * (f + 1)
              = (p.length * b - 64 * f) + b - 64 by rw [hnb']; omega]
          have hσb : (p.length * b - 64 * f) + b - 64 ≤ b := by omega
          have hxdiv : x / 2 ^ ((p.length * b - 64 * f) + b - 64)
              < 2 ^ (64 - (p.length * b - 64 * f)) := by
            refine (Nat.div_lt_iff_lt_mul (two_pow_pos' _)).mpr ?_
            calc x < 2 ^ b := hx
              _ = 2 ^ (64 - (p.length * b - 64 * f))
                  * 2 ^ ((p.length * b - 64 * f) + b - 64) := by
                rw [← pow_add]; congr 1; omega
          rw [Nat.shiftRight_eq_div_pow, Nat.shiftRight_eq_div_pow]
          rw [helem, show valBE b p % 2 ^ (p.length * b - 64 * f)
              * 2 ^ (64 - (p.length * b - 64 * f))
              = 2 ^ (64 - (p.length * b - 64 * f))
              * (valBE b p % 2 ^ (p.length * b - 64 * f)) from Nat.mul_comm _ _]
          rw [← Nat.mul_add_lt_is_or hxdiv _]
          rw [concat_div _ _ _ _ hσb,
            show b - ((p.length * b - 64 * f) + b - 64)
              = 64 - (p.length * b - 64 * f) by omega,
            show (2 : Nat) ^ 64
              = 2 ^ ((p.length * b - 64 * f) + (64 - (p.length * b - 64 * f))) by
                congr 1; omega,
            concat_mod _ _ _ _ hxdiv]
          ring
      · rw [hnb']; omega
      · rw [hnb']; omega
      · intro _; rw [hnb']; omega
      · rw [hnb']
        omega
      · rw [htn2, Nat.zero_or, Nat.shiftLeft_eq, hN']
        rw [show (2 : Nat) ^ 64
            = 2 ^ (((p.length * b - 64 * f) + b - 64)
              + (64 - ((p.length * b - 64 * f) + b - 64))) by congr 1; omega]
        rw [mul_pow_mod_eq]
        rw [show (p.length + 1) * b - 64 * (f + 1)
            = (p.length * b - 64 * f) + b - 64 by rw [hnb']; omega]
        congr 1
        rw [show valBE b p * 2 ^ b
            = 2 ^ ((p.length * b - 64 * f) + b - 64)
              * (valBE b p * 2 ^ (b - ((p.length * b - 64 * f) + b - 64))) by
          rw [show (2 : Nat) ^ b
              = 2 ^ ((p.length * b - 64 * f) + b - 64)
                * 2 ^ (b - ((p.length * b - 64 * f) + b - 64)) by
            rw [← pow_add]; congr 1; omega]
          ring]
        rw [Nat.mul_add_mod]
    · -- the next entry fits: it is ORed into the accumulator
      have hcond : (p.length * b - 64 * f) + b ≤ 64 := by omega
      have htn : (p.foldl (compress_step b)
          { out := [], element := 0, shift := (64 : Int) - b }).shift.toNat
          = 64 - b - (p.length * b - 64 * f) := by omega
      refine ⟨f, ?_, ?_, ?_, ?_, ?_, ?_⟩ <;>
        simp only [compress_step, if_neg hflush, hlen', List.length_append]
      · rw [hout]
        exact List.map_congr_left (fun j hj =>
          (hchunk j (List.mem_range.mp hj)).symm)
      · rw [hnb']; omega
      · rw [hnb']; omega
      · intro _; rw [hnb']; omega
      · rw [hnb']
        omega
      · rw [htn, Nat.shiftLeft_eq, helem]
        have hxlt : x * 2 ^ (64 - b - (p.length * b - 64 * f))
            < 2 ^ (64 - (p.length * b - 64 * f)) := by
          calc x * 2 ^ (64 - b - (p.length * b - 64 * f))
              < 2 ^ b * 2 ^ (64 - b - (p.length * b - 64 * f)) :=
                (Nat.mul_lt_mul_right (two_pow_pos' _)).mpr hx
            _ = 2 ^ (64 - (p.length * b - 64 * f)) := by
                rw [← pow_add]; congr 1; omega
        rw [Nat.mod_eq_of_lt (lt_of_lt_of_le hxlt
          (Nat.pow_le_pow_right (by norm_num) (by omega)))]
        rw [show valBE b p % 2 ^ (p.length * b - 64 * f)
            * 2 ^ (64 - (p.length * b - 64 * f))
            = 2 ^ (64 - (p.length * b - 64 * f))
            * (valBE b p % 2 ^ (p.length * b - 64 * f)) from Nat.mul_comm _ _]
        rw [← Nat.mul_add_lt_is_or hxlt _]
        rw [hN', show (p.length + 1) * b - 64 * f
            = (p.length * b - 64 * f) + b by rw [hnb']; omega]
        rw [concat_mod _ _ _ _ hx]
        rw [show 64 - ((p.length * b - 64 * f) + b)
            = 64 - b - (p.length * b - 64 * f) by omega]
        rw [show (2 : Nat) ^ (64 - (p.length * b - 64 * f))
            = 2 ^ b * 2 ^ (64 - b - (p.length * b - 64 * f)) by
          rw [← pow_add]; congr 1; omega]
        ring

/-- Claim C10: `compress_sa` compresses destructively in place: for every
array of `L0 ≥ 1` entries below `2^b` and bit width `b` with `0 < b < 64`,
after the call the length passed by pointer has been reduced to
`⌈L0·b/64⌉`, exactly that prefix of the caller's array holds the big-endian
packed bit stream, and the entries beyond that prefix are the original
uncompressed entries (the prefix is overwritten, no fresh buffer is
returned).  The claim's universal form fails for `L0 = 0`
(see the counterexample): the loop still flushes one word. -/
theorem claim_C10_compress_in_place (sa : List Nat) (b : Nat)
    (hL : 0 < sa.length) (hb : 0 < b) (hb64 : b < 64)
    (hent : ∀ x ∈ sa, x < 2 ^ b) :
    (compress_sa sa b).2 = (sa.length * b + 63) / 64 ∧
    (compress_sa sa b).1
      = packedWords b sa ++ sa.drop ((sa.length * b + 63) / 64) := by
  obtain ⟨f, hout, h1, h2, h3, hshift, helem⟩ := compress_foldl_inv b hb hb64 sa hent
  have hr1 : 64 * f < sa.length * b := h3 hL
  have hW : (sa.length * b + 63) / 64 = f + 1 := by
    rw [show sa.length * b + 63
        = ((sa.length * b - 64 * f) + 63) + f * 64 by omega,
      Nat.add_mul_div_right _ _ (by norm_num : (0 : Nat) < 64)]
    have hq : ((sa.length * b - 64 * f) + 63) / 64 = 1 :=
      Nat.div_eq_of_lt_le (by omega) (by omega)
    omega
  have hlenout : (sa.foldl (compress_step b)
      { out := [], element := 0, shift := (64 : Int) - b }).out.length = f := by
    rw [hout]
    simp
  have helt : (sa.foldl (compress_step b)
      { out := [], element := 0, shift := (64 : Int) - b }).element < 2 ^ 64 := by
    rw [helem]
    calc (valBE b sa % 2 ^ (sa.length * b - 64 * f))
          * 2 ^ (64 - (sa.length * b - 64 * f))
        < 2 ^ (sa.length * b - 64 * f) * 2 ^ (64 - (sa.length * b - 64 * f)) :=
          (Nat.mul_lt_mul_right (two_pow_pos' _)).mpr
            (Nat.mod_lt _ (two_pow_pos' _))
      _ ≤ 2 ^ 64 := by rw [← pow_add]; exact Nat.pow_le_pow_right (by norm_num) (by omega)
  have hwords : (sa.foldl (compress_step b)
        { out := [], element := 0, shift := (64 : Int) - b }).out
      ++ [(sa.foldl (compress_step b)
        { out := [], element := 0, shift := (64 : Int) - b }).element % 2 ^ 64]
      = packedWords b sa := by
    rw [Nat.mod_eq_of_lt helt]
    unfold packedWords
    rw [hW, List.range_succ, List.map_append, List.map_cons, List.map_nil, hout]
    congr 1
    · refine List.map_congr_left ?_
      intro j hj
      have hjf : j < f := List.mem_range.mp hj
      rw [Nat.shiftRight_eq_div_pow, Nat.shiftRight_eq_div_pow,
        mul_pow_div (valBE b sa) (64 * (f + 1) - sa.length * b)
          (64 * (f + 1 - 1 - j)) (by omega),
        show 64 * (f + 1 - 1 - j) - (64 * (f + 1) - sa.length * b)
          = sa.length * b - 64 * (j + 1) by omega]
    · congr 1
      rw [helem,
        show 64 * (f + 1) - sa.length * b
          = 64 - (sa.length * b - 64 * f) by omega,
        show (64 : Nat) * (f + 1 - 1 - f) = 0 by omega,
        Nat.shiftRight_zero,
        show (2 : Nat) ^ 64
          = 2 ^ ((sa.length * b - 64 * f) + (64 - (sa.length * b - 64 * f))) by
          congr 1; omega,
        mul_pow_mod_eq]
  constructor
  · have h2c : (compress_sa sa b).2 = f + 1 := by
      simp [compress_sa, hlenout]
    rw [h2c, hW]
  · simp only [compress_sa]
    rw [hwords]
    have hlenw : (packedWords b sa).length = (sa.length * b + 63) / 64 := by
      unfold packedWords
      simp
    rw [hlenw]

theorem claim_C10_witness :
    (0 < ([1] : List Nat).length ∧ 0 < 1 ∧ 1 < 64 ∧
      ∀ x ∈ ([1] : List Nat), x < 2 ^ 1) ∧
    ((compress_sa [1] 1).2 = (([1] : List Nat).length * 1 + 63) / 64 ∧
      (compress_sa [1] 1).1
        = packedWords 1 [1]
          ++ ([1] : List Nat).drop ((([1] : List Nat).length * 1 + 63) / 64)) :=
  ⟨⟨by decide, by decide, by decide, by decide⟩,
    claim_C10_compress_in_place [1] 1 (by decide) (by decide) (by decide)
      (by decide)⟩

/-! ## Claim C4: the partial-sorting induction scan steps
(src/libsais/src/libsais16x64.c lines 914-945 and 1102-1133) -/

namespace Libsais16

/-- Embedding of `p & SAINT_MAX` on a two's-complement `int64_t`: clears the
sign bit, i.e. adds `2^63` to a negative value. -/
def andMax (x : Int) : Int := if x < 0 then x + 2 ^ 63 else x

/-- Embedding of `x | (c << (SAINT_BIT - 1))` on a two's-complement `int64_t`
for `0 ≤ x < 2^63` (the scans apply it to positions `p - 1` of the text): sets
the sign bit, i.e. subtracts `2^63`, when `c` holds. -/
def orMSB (x : Int) (c : Bool) : Int := if c then x - 2 ^ 63 else x

/-- Pointwise array update. -/
def upd (f : Nat → Int) (i : Nat) (x : Int) : Nat → Int :=
  fun j => if j = i then x else f j

theorem upd_self (f : Nat → Int) (i : Nat) (x : Int) : upd f i x i = x := by
  simp [upd]

theorem upd_other (f : Nat → Int) (i : Nat) (x : Int) (j : Nat) (h : j ≠ i) :
    upd f i x j = f j := by
  simp [upd, h]

/-- State threaded through the partial-sorting scans: the `SA` array, the
single `buckets` array (of which `induction_bucket` and `distinct_names` are
aliased segments) and the running name counter `d`. -/
structure ScanState where
  SA : Nat → Int
  buckets : Nat → Int
  d : Int

/-- One iteration of the loop body of
`libsais16x64_partial_sorting_scan_left_to_right_16u` (lines 934-943; the
unrolled pairs at lines 930-936 perform the same two consecutive steps) on
slot `i`: read `p = SA[i]`, bump `d` by the tag bit, strip the tag, compute
`v = BUCKETS_INDEX2(T[p-1], T[p-2] >= T[p-1])`, write the tagged `p - 1` at
`SA[induction_bucket[v]++]` (`induction_bucket = &buckets[4*ALPHABET_SIZE]`,
`distinct_names = &buckets[2*ALPHABET_SIZE]`), then set
`distinct_names[v] = d`. -/
def scanStepL2R (T : Nat → Nat) (s : ScanState) (i : Nat) : ScanState :=
  let p0 := s.SA i
  let d := s.d + (if p0 < 0 then 1 else 0)
  let p := andMax p0
  let v := 2 * T (p - 1).toNat +
    (if T (p - 2).toNat ≥ T (p - 1).toNat then 1 else 0)
  let idx := (s.buckets (4 * ALPHABET_SIZE + v)).toNat
  let SA' := upd s.SA idx
    (orMSB (p - 1) (decide (s.buckets (2 * ALPHABET_SIZE + v) ≠ d)))
  let buckets' := upd s.buckets (4 * ALPHABET_SIZE + v)
    (s.buckets (4 * ALPHABET_SIZE + v) + 1)
  let buckets'' := upd buckets' (2 * ALPHABET_SIZE + v) d
  { SA := SA', buckets := buckets'', d := d }

/-- One iteration of the loop body of
`libsais16x64_partial_sorting_scan_right_to_left_16u` (lines 1127-1131; the
unrolled pairs behave identically) on slot `i`: as the left-to-right step but
with `induction_bucket = &buckets[0]`, the strict class tie-break
`T[p-2] > T[p-1]`, and a write at the pre-decremented
`SA[--induction_bucket[v]]`. -/
def scanStepR2L (T : Nat → Nat) (s : ScanState) (i : Nat) : ScanState :=
  let p0 := s.SA i
  let d := s.d + (if p0 < 0 then 1 else 0)
  let p := andMax p0
  let v := 2 * T (p - 1).toNat +
    (if T (p - 2).toNat > T (p - 1).toNat then 1 else 0)
  let idx := s.buckets v - 1
  let SA' := upd s.SA idx.toNat
    (orMSB (p - 1) (decide (s.buckets (2 * ALPHABET_SIZE + v) ≠ d)))
  let buckets' := upd s.buckets v idx
  let buckets'' := upd buckets' (2 * ALPHABET_SIZE + v) d
  { SA := SA', buckets := buckets'', d := d }

/-- The sequential left-to-right scan over the slots
`[start, start + size)`, as performed by the two loops of
`libsais16x64_partial_sorting_scan_left_to_right_16u`. -/
def scanL2R (T : Nat → Nat) (s : ScanState) (start size : Nat) : ScanState :=
  (List.range size).foldl (fun st k => scanStepL2R T st (start + k)) s

/-- The sequential right-to-left scan over the slots
`[start, start + size)` in decreasing order, as performed by the two loops of
`libsais16x64_partial_sorting_scan_right_to_left_16u`. -/
def scanR2L (T : Nat → Nat) (s : ScanState) (start size : Nat) : ScanState :=
  (List.range size).foldl (fun st k => scanStepR2L T st (start + size - 1 - k)) s

theorem scanStepL2R_char (T : Nat → Nat) (s : ScanState) (i : Nat)
    (d p : Int) (v : Nat)
    (hd : d = s.d + (if s.SA i < 0 then 1 else 0))
    (hp : p = andMax (s.SA i))
    (hv : v = 2 * T (p - 1).toNat +
      (if T (p - 2).toNat ≥ T (p - 1).toNat then 1 else 0)) :
    (scanStepL2R T s i).d = d ∧
    (scanStepL2R T s i).SA (s.buckets (4 * ALPHABET_SIZE + v)).toNat
      = orMSB (p - 1) (decide (s.buckets (2 * ALPHABET_SIZE + v) ≠ d)) ∧
    (scanStepL2R T s i).buckets (4 * ALPHABET_SIZE + v)
      = s.buckets (4 * ALPHABET_SIZE + v) + 1 ∧
    (scanStepL2R T s i).buckets (2 * ALPHABET_SIZE + v) = d ∧
    (∀ j, j ≠ (s.buckets (4 * ALPHABET_SIZE + v)).toNat →
      (scanStepL2R T s i).SA j = s.SA j) ∧
    (∀ w, w ≠ 4 * ALPHABET_SIZE + v → w ≠ 2 * ALPHABET_SIZE + v →
      (scanStepL2R T s i).buckets w = s.buckets w) := by
  subst hd hp hv
  have hAA : 4 * ALPHABET_SIZE + (2 * T (andMax (s.SA i) - 1).toNat +
      (if T (andMax (s.SA i) - 2).toNat ≥ T (andMax (s.SA i) - 1).toNat
        then 1 else 0))
      ≠ 2 * ALPHABET_SIZE + (2 * T (andMax (s.SA i) - 1).toNat +
      (if T (andMax (s.SA i) - 2).toNat ≥ T (andMax (s.SA i) - 1).toNat
        then 1 else 0)) := by
    simp only [ALPHABET_SIZE]
    omega
  refine ⟨rfl, ?_, ?_, ?_, ?_, ?_⟩
  · simp only [scanStepL2R]
    rw [upd_self]
  · simp only [scanStepL2R]
    rw [upd_other _ _ _ _ hAA, upd_self]
  · simp only [scanStepL2R]
    rw [upd_self]
  · intro j hj
    simp only [scanStepL2R]
    rw [upd_other _ _ _ _ hj]
  · intro w hw1 hw2
    simp only [scanStepL2R]
    rw [upd_other _ _ _ _ hw2, upd_other _ _ _ _ hw1]

theorem scanStepR2L_char (T : Nat → Nat) (s : ScanState) (i : Nat)
    (d p : Int) (v : Nat)
    (hd : d = s.d + (if s.SA i < 0 then 1 else 0))
    (hp : p = andMax (s.SA i))
    (hv : v = 2 * T (p - 1).toNat +
      (if T (p - 2).toNat > T (p - 1).toNat then 1 else 0)) :
    (scanStepR2L T s i).d = d ∧
    (scanStepR2L T s i).SA (s.buckets v - 1).toNat
      = orMSB (p - 1) (decide (s.buckets (2 * ALPHABET_SIZE + v) ≠ d)) ∧
    (scanStepR2L T s i).buckets v = s.buckets v - 1 ∧
    (scanStepR2L T s i).buckets (2 * ALPHABET_SIZE + v) = d ∧
    (∀ j, j ≠ (s.buckets v - 1).toNat →
      (scanStepR2L T s i).SA j = s.SA j) ∧
    (∀ w, w ≠ v → w ≠ 2 * ALPHABET_SIZE + v →
      (scanStepR2L T s i).buckets w = s.buckets w) := by
  subst hd hp hv
  have hAA : 2 * T (andMax (s.SA i) - 1).toNat +
      (if T (andMax (s.SA i) - 2).toNat > T (andMax (s.SA i) - 1).toNat
        then 1 else 0)
      ≠ 2 * ALPHABET_SIZE + (2 * T (andMax (s.SA i) - 1).toNat +
      (if T (andMax (s.SA i) - 2).toNat > T (andMax (s.SA i) - 1).toNat
        then 1 else 0)) := by
    simp only [ALPHABET_SIZE]
    omega
  refine ⟨rfl, ?_, ?_, ?_, ?_, ?_⟩
  · simp only [scanStepR2L]
    rw [upd_self]
  · simp only [scanStepR2L]
    rw [upd_other _ _ _ _ hAA, upd_self]
  · simp only [scanStepR2L]
    rw [upd_self]
  · intro j hj
    simp only [scanStepR2L]
    rw [upd_other _ _ _ _ hj]
  · intro w hw1 hw2
    simp only [scanStepR2L]
    rw [upd_other _ _ _ _ hw2, upd_other _ _ _ _ hw1]

/-- Claim C4: in the 16-bit partial-order induction, every left-to-right
L-pass step on a slot holding tagged position `p` bumps `d` by the tag bit,
computes the bucket index `v = 2·T[p−1] + (T[p−2] ≥ T[p−1])`, writes
`(p−1) | ((distinct_names[v] ≠ d) << 63)` at `SA[induction_bucket[v]++]`
(`induction_bucket = &buckets[4·ALPHABET_SIZE]`,
`distinct_names = &buckets[2·ALPHABET_SIZE]`), then sets
`distinct_names[v] = d`, and touches nothing else; the right-to-left S-pass
step is symmetric with `induction_bucket = &buckets[0]`, writing at the
pre-decremented `SA[--induction_bucket[v]]` and using the strict comparison
`T[p−2] > T[p−1]` as the class tie-break. -/
theorem claim_C4_induction_scan_steps (T : Nat → Nat) (s : ScanState) (i : Nat)
    (d p : Int) (vL vR : Nat)
    (hd : d = s.d + (if s.SA i < 0 then 1 else 0))
    (hp : p = andMax (s.SA i))
    (hvL : vL = 2 * T (p - 1).toNat +
      (if T (p - 2).toNat ≥ T (p - 1).toNat then 1 else 0))
    (hvR : vR = 2 * T (p - 1).toNat +
      (if T (p - 2).toNat > T (p - 1).toNat then 1 else 0)) :
    ((scanStepL2R T s i).d = d ∧
     (scanStepL2R T s i).SA (s.buckets (4 * ALPHABET_SIZE + vL)).toNat
       = orMSB (p - 1) (decide (s.buckets (2 * ALPHABET_SIZE + vL) ≠ d)) ∧
     (scanStepL2R T s i).buckets (4 * ALPHABET_SIZE + vL)
       = s.buckets (4 * ALPHABET_SIZE + vL) + 1 ∧
     (scanStepL2R T s i).buckets (2 * ALPHABET_SIZE + vL) = d ∧
     (∀ j, j ≠ (s.buckets (4 * ALPHABET_SIZE + vL)).toNat →
       (scanStepL2R T s i).SA j = s.SA j) ∧
     (∀ w, w ≠ 4 * ALPHABET_SIZE + vL → w ≠ 2 * ALPHABET_SIZE + vL →
       (scanStepL2R T s i).buckets w = s.buckets w)) ∧
    ((scanStepR2L T s i).d = d ∧
     (scanStepR2L T s i).SA (s.buckets vR - 1).toNat
       = orMSB (p - 1) (decide (s.buckets (2 * ALPHABET_SIZE + vR) ≠ d)) ∧
     (scanStepR2L T s i).buckets vR = s.buckets vR - 1 ∧
     (scanStepR2L T s i).buckets (2 * ALPHABET_SIZE + vR) = d ∧
     (∀ j, j ≠ (s.buckets vR - 1).toNat →
       (scanStepR2L T s i).SA j = s.SA j) ∧
     (∀ w, w ≠ vR → w ≠ 2 * ALPHABET_SIZE + vR →
       (scanStepR2L T s i).buckets w = s.buckets w)) :=
  ⟨scanStepL2R_char T s i d p vL hd hp hvL,
    scanStepR2L_char T s i d p vR hd hp hvR⟩

theorem claim_C4_witness :
    ((0 : Int) = 0 + (if (5 : Int) < 0 then 1 else 0) ∧
      (5 : Int) = andMax 5 ∧
      (1 : Nat) = 2 * 0 + (if (0 : Nat) ≥ 0 then 1 else 0) ∧
      (0 : Nat) = 2 * 0 + (if (0 : Nat) > 0 then 1 else 0)) ∧
    (((scanStepL2R (fun _ => 0) ⟨fun _ => 5, fun _ => 3, 0⟩ 0).d = 0 ∧
      (scanStepL2R (fun _ => 0) ⟨fun _ => 5, fun _ => 3, 0⟩ 0).SA 3
        = 4 - 2 ^ 63 ∧
      (scanStepL2R (fun _ => 0) ⟨fun _ => 5, fun _ => 3, 0⟩ 0).buckets
          (4 * ALPHABET_SIZE + 1) = 4 ∧
      (scanStepL2R (fun _ => 0) ⟨fun _ => 5, fun _ => 3, 0⟩ 0).buckets
          (2 * ALPHABET_SIZE + 1) = 0 ∧
      (∀ j, j ≠ 3 →
        (scanStepL2R (fun _ => 0) ⟨fun _ => 5, fun _ => 3, 0⟩ 0).SA j = 5) ∧
      (∀ w, w ≠ 4 * ALPHABET_SIZE + 1 → w ≠ 2 * ALPHABET_SIZE + 1 →
        (scanStepL2R (fun _ => 0) ⟨fun _ => 5, fun _ => 3, 0⟩ 0).buckets w
          = 3)) ∧
     ((scanStepR2L (fun _ => 0) ⟨fun _ => 5, fun _ => 3, 0⟩ 0).d = 0 ∧
      (scanStepR2L (fun _ => 0) ⟨fun _ => 5, fun _ => 3, 0⟩ 0).SA 2
        = 4 - 2 ^ 63 ∧
      (scanStepR2L (fun _ => 0) ⟨fun _ => 5, fun _ => 3, 0⟩ 0).buckets 0 = 2 ∧
      (scanStepR2L (fun _ => 0) ⟨fun _ => 5, fun _ => 3, 0⟩ 0).buckets
          (2 * ALPHABET_SIZE + 0) = 0 ∧
      (∀ j, j ≠ 2 →
        (scanStepR2L (fun _ => 0) ⟨fun _ => 5, fun _ => 3, 0⟩ 0).SA j = 5) ∧
      (∀ w, w ≠ 0 → w ≠ 2 * ALPHABET_SIZE + 0 →
        (scanStepR2L (fun _ => 0) ⟨fun _ => 5, fun _ => 3, 0⟩ 0).buckets w
          = 3))) :=
  ⟨⟨by decide, by decide, by decide, by decide⟩,
    claim_C4_induction_scan_steps (fun _ => 0) ⟨fun _ => 5, fun _ => 3, 0⟩ 0
      0 5 1 0 (by decide) (by decide) (by decide) (by decide)⟩

/-! ## Claim C5: the LMS count and the size of recursive calls
(src/libsais/src/libsais16x64.c lines 310-354, 2201-2310, 2336-2346) -/

/-- One iteration of the descending scan of
`libsais16x64_count_and_gather_lms_suffixes_16u` (lines 330-349; the unrolled
4-wide loop performs the same consecutive steps), restricted to the `s` / `m`
dynamics: at position `i = n - 2 - k` the automaton shifts in the bit
`c0 > (c1 - (s & 1))` (signed comparison, `s` a 64-bit `fast_uint_t`, so the
shift truncates modulo `2^64`; `s & 1` is `s % 2`) and the LMS counter grows
exactly when `(s & 3) == 1`, i.e. `s % 4 = 1`.  The state is the pair
`(s, count)`. -/
def lmsCountStep (T : Nat → Nat) (n : Nat) (st : Nat × Nat) (k : Nat) : Nat × Nat :=
  let i := n - 2 - k
  let s := (st.1 * 2 +
    (if ((T i : Int) > (T (i + 1) : Int) - (st.1 % 2 : Nat)) then 1 else 0)) % 2 ^ 64
  (s, st.2 + (if s % 4 = 1 then 1 else 0))

/-- The number `m` of LMS suffixes returned by
`libsais16x64_count_and_gather_lms_suffixes_16u` on the whole block
`[0, n)`: the automaton starts with `s = (T[n-1] >= -1) = 1` (the forward
equal-run scan leaves `c1 = -1` for the full block) and performs the
descending steps at `i = n-2, …, 0`; the trailing step at `i = -1` shifts in
`(-1 > c0 - (s & 1)) = 0`, after which `s & 3 ∈ {0, 2}`, so it never
increments the count and is omitted. -/
def lmsCount (T : Nat → Nat) (n : Nat) : Nat :=
  ((List.range (n - 1)).foldl (lmsCountStep T n) (1, 0)).2

/-- Invariant of the counting fold: two consecutive steps can never both
increment (an increment needs `s` even before the step and leaves it odd), so
twice the count stays below the number of steps plus the parity of `s`. -/
theorem lmsCountStep_fold_le (T : Nat → Nat) (n : Nat) :
    ∀ (l : List Nat) (st : Nat × Nat) (c : Nat),
    2 * st.2 ≤ c + st.1 % 2 →
    2 * (l.foldl (lmsCountStep T n) st).2
      ≤ c + l.length + (l.foldl (lmsCountStep T n) st).1 % 2 := by
  intro l
  induction l with
  | nil =>
    intro st c h
    simpa using h
  | cons x l ih =>
    intro st c h
    rw [List.foldl_cons, List.length_cons]
    have h4 : (4 : Nat) ∣ 2 ^ 64 := ⟨2 ^ 62, by norm_num⟩
    have h2 : (2 : Nat) ∣ 2 ^ 64 := ⟨2 ^ 63, by norm_num⟩
    have hinv : 2 * (lmsCountStep T n st x).2
        ≤ (c + 1) + (lmsCountStep T n st x).1 % 2 := by
      obtain ⟨b, hbeq, hb1⟩ : ∃ b : Nat, lmsCountStep T n st x
          = ((st.1 * 2 + b) % 2 ^ 64,
             st.2 + (if (st.1 * 2 + b) % 2 ^ 64 % 4 = 1 then 1 else 0))
          ∧ b ≤ 1 := by
        refine ⟨_, rfl, ?_⟩
        split <;> omega
      rw [hbeq]
      dsimp only
      rw [Nat.mod_mod_of_dvd _ h2, Nat.mod_mod_of_dvd _ h4]
      split <;> omega
    have := ih (lmsCountStep T n st x) (c + 1) hinv
    omega

/-- The LMS count of a sequence of length `n` is at most `n / 2`. -/
theorem lmsCount_le_half (T : Nat → Nat) (n : Nat) : lmsCount T n ≤ n / 2 := by
  have h := lmsCountStep_fold_le T n (List.range (n - 1)) (1, 0) 0 (by decide)
  simp only [List.length_range] at h
  have hmod : ((List.range (n - 1)).foldl (lmsCountStep T n) (1, 0)).1 % 2 < 2 :=
    Nat.mod_lt _ (by norm_num)
  unfold lmsCount
  omega

/-- Claim C5: every recursive invocation inside the SA-IS engine runs on a
strictly smaller problem of size at most `n / 2`: the number `m` of LMS
suffixes of a sequence of length `n` satisfies `m ≤ n / 2`; the recursive call
of `libsais16x64_main_32s_recursion` (and the call from the 16-bit level into
`libsais16x64_main_32s_entry`) is made on `m - f ≤ n / 2 < n` entries; and a
chain of problem sizes that halves at every level reaches 0 within
`⌊log₂ n⌋ + 1` levels, so the recursion is well-founded with logarithmic
depth. -/
theorem claim_C5_lms_recursion_bound (T : Nat → Nat) (n f : Nat)
    (chain : Nat → Nat)
    (hn : 1 ≤ n)
    (hchain0 : chain 0 = n)
    (hstep : ∀ i, chain (i + 1) ≤ chain i / 2) :
    lmsCount T n ≤ n / 2 ∧
    lmsCount T n - f ≤ n / 2 ∧
    lmsCount T n - f < n ∧
    chain (Nat.log2 n + 1) = 0 := by
  have hm := lmsCount_le_half T n
  have hpow : ∀ i, chain i ≤ n / 2 ^ i := by
    intro i
    induction i with
    | zero => simp [hchain0]
    | succ i ih =>
      calc chain (i + 1) ≤ chain i / 2 := hstep i
        _ ≤ n / 2 ^ i / 2 := Nat.div_le_div_right ih
        _ = n / 2 ^ (i + 1) := by rw [Nat.div_div_eq_div_mul, pow_succ]
  have hz : n / 2 ^ (Nat.log2 n + 1) = 0 := by
    refine Nat.div_eq_of_lt ?_
    rw [Nat.log2_eq_log_two]
    exact Nat.lt_pow_succ_log_self (by norm_num) n
  have hlast := hpow (Nat.log2 n + 1)
  refine ⟨hm, by omega, by omega, by omega⟩

theorem claim_C5_witness :
    (1 ≤ 4 ∧ (fun i : Nat => if i = 0 then 4 else 0) 0 = 4 ∧
      ∀ i : Nat, (fun i : Nat => if i = 0 then 4 else 0) (i + 1)
        ≤ (fun i : Nat => if i = 0 then 4 else 0) i / 2) ∧
    (lmsCount (fun _ => 0) 4 ≤ 4 / 2 ∧
      lmsCount (fun _ => 0) 4 - 0 ≤ 4 / 2 ∧
      lmsCount (fun _ => 0) 4 - 0 < 4 ∧
      (fun i : Nat => if i = 0 then 4 else 0) (Nat.log2 4 + 1) = 0) :=
  ⟨⟨by decide, by decide, fun _ => Nat.zero_le _⟩,
    claim_C5_lms_recursion_bound (fun _ => 0) 4 0
      (fun i => if i = 0 then 4 else 0)
      (by decide) (by decide) (fun _ => Nat.zero_le _)⟩

/-! ## Claim C9: sign-bit marking of T and its restoration
(src/libsais/src/libsais16x64.c lines 1998-2031, 2083-2089, 2091-2112,
2180-2199) -/

/-- Embedding of `x |= SAINT_MIN` on a two's-complement `int64_t`: sets the
sign bit, i.e. subtracts `2^63` from a non-negative value and leaves a
negative value unchanged. -/
def orMin (x : Int) : Int := if 0 ≤ x then x - 2 ^ 63 else x

theorem orMin_idem (x : Int) (hx : x < 2 ^ 63) : orMin (orMin x) = orMin x := by
  unfold orMin
  by_cases h : 0 ≤ x
  · rw [if_pos h, if_neg (by omega)]
  · rw [if_neg h, if_neg h]

theorem andMax_orMin (x : Int) (h0 : 0 ≤ x) (hx : x < 2 ^ 63) :
    andMax (orMin x) = x := by
  unfold andMax orMin
  rw [if_pos h0, if_pos (by omega : x - 2 ^ 63 < 0)]
  omega

/-- State of the renumber pass: the 32-bit recursive core's text `T`, the `SA`
array (`SAm = &SA[m]` is its upper part) and the unique-suffix counter `f`. -/
structure RenumberState where
  T : Nat → Int
  SA : Nat → Int
  f : Int

/-- One iteration of
`libsais16x64_renumber_unique_and_nonunique_lms_suffixes_32s` (lines
2019-2022 and 2026-2029; the unrolled 4-wide loop performs the same
consecutive steps) on slot `i`: read `p = (sa_uint_t)SA[i]` (non-negative in
the scanned prefix, embedded by `Int.toNat`) and `s = SAm[p >> 1]`; when
`s < 0` the suffix is unique, so `T[p] |= SAINT_MIN` marks it, `f` grows and
`s` becomes `i + SAINT_MIN + f`; finally `SAm[p >> 1] = s - f`. -/
def renumber_step (m : Nat) (st : RenumberState) (i : Nat) : RenumberState :=
  if st.SA (m + (st.SA i).toNat / 2) < 0 then
    { T := upd st.T (st.SA i).toNat (orMin (st.T (st.SA i).toNat)),
      SA := upd st.SA (m + (st.SA i).toNat / 2)
        (((i : Int) + -(2 ^ 63) + (st.f + 1)) - (st.f + 1)),
      f := st.f + 1 }
  else
    { T := st.T,
      SA := upd st.SA (m + (st.SA i).toNat / 2)
        (st.SA (m + (st.SA i).toNat / 2) - st.f),
      f := st.f }

/-- `libsais16x64_renumber_unique_and_nonunique_lms_suffixes_32s` on the full
block `[0, m)` with initial `f` taken from the state (the `_omp` wrapper at
lines 2059-2070 passes `f = 0`). -/
def renumber_unique_and_nonunique_lms_suffixes_32s (m : Nat)
    (st : RenumberState) : RenumberState :=
  (List.range m).foldl (renumber_step m) st

/-- The scan loop of `libsais16x64_merge_unique_lms_suffixes_32s` (lines
2105-2110; the unrolled loop performs the same steps, its internal `i++`
included): walk `i` upward over `[i, j)`; whenever `T[i] < 0`, clear the sign
bit (`T[i] = c & SAINT_MAX`), write `SA[tmp] = i`, consume the next `tmp` from
the stream starting at `ptr`, and skip the following position (`i++` inside
the body plus the loop increment). -/
def mergeU (T SA : Nat → Int) (i j : Nat) (tmp : Int) (ptr : Nat) :
    (Nat → Int) × (Nat → Int) :=
  if h : i < j then
    if T i < 0 then
      mergeU (upd T i (andMax (T i))) (upd SA tmp.toNat i) (i + 2) j
        ((upd SA tmp.toNat i) ptr) (ptr + 1)
    else
      mergeU T SA (i + 1) j tmp ptr
  else (T, SA)
termination_by j - i
decreasing_by
  all_goals omega

/-- `libsais16x64_merge_unique_lms_suffixes_32s` on the full block `[0, n)`:
`SAnm = &SA[n - m - 1 + l]`, the first `tmp` is pre-read and the stream
pointer advanced. -/
def merge_unique_lms_suffixes_32s (T SA : Nat → Int) (n m l : Nat) :
    (Nat → Int) × (Nat → Int) :=
  mergeU T SA 0 n (SA (n - m - 1 + l)) (n - m - 1 + l + 1)

/-- The renumber pass only ORs `SAINT_MIN` into `T` at positions drawn from
the scanned `SA` prefix (which it never overwrites: all its `SA` writes land
at indices `≥ m`): its final `T` is the initial `T` with the sign bit set on
some set of positions. -/
theorem renumber_fold_marks (m : Nat) (T0 SA0 : Nat → Int)
    (hT : ∀ j, T0 j < 2 ^ 63) :
    ∀ (l : List Nat) (st : RenumberState),
    (∀ i, i < m → st.SA i = SA0 i) →
    (∃ P : List Nat, (∀ p ∈ P, ∃ i, i < m ∧ p = (SA0 i).toNat) ∧
      st.T = fun j => if j ∈ P then orMin (T0 j) else T0 j) →
    (∀ i ∈ l, i < m) →
    (∀ i, i < m → (l.foldl (renumber_step m) st).SA i = SA0 i) ∧
    (∃ P : List Nat, (∀ p ∈ P, ∃ i, i < m ∧ p = (SA0 i).toNat) ∧
      (l.foldl (renumber_step m) st).T
        = fun j => if j ∈ P then orMin (T0 j) else T0 j) := by
  intro l
  induction l with
  | nil =>
    intro st hSA hP _
    exact ⟨hSA, hP⟩
  | cons x l ih =>
    intro st hSA hP hl
    rw [List.foldl_cons]
    have hxm : x < m := hl x (by simp)
    refine ih (renumber_step m st x) ?_ ?_ (fun i hi => hl i (by simp [hi]))
    · intro i hi
      have hne : i ≠ m + (st.SA x).toNat / 2 := by omega
      unfold renumber_step
      split
      · exact (upd_other _ _ _ _ hne).trans (hSA i hi)
      · exact (upd_other _ _ _ _ hne).trans (hSA i hi)
    · obtain ⟨P, hPorig, hPT⟩ := hP
      by_cases hcond : st.SA (m + (st.SA x).toNat / 2) < 0
      · refine ⟨(st.SA x).toNat :: P, ?_, ?_⟩
        · intro p hp
          rcases List.mem_cons.mp hp with h | h
          · exact ⟨x, hxm, by rw [h, hSA x hxm]⟩
          · exact hPorig p h
        · unfold renumber_step
          rw [if_pos hcond]
          dsimp only
          funext j
          by_cases hj : j = (st.SA x).toNat
          · rw [hj, upd_self, hPT]
            dsimp only
            rw [if_pos (by simp : (st.SA x).toNat ∈ (st.SA x).toNat :: P)]
            by_cases hjP : (st.SA x).toNat ∈ P
            · rw [if_pos hjP]
              exact orMin_idem _ (hT _)
            · rw [if_neg hjP]
          · rw [upd_other _ _ _ _ hj, hPT]
            dsimp only
            by_cases hjP : j ∈ P
            · rw [if_pos hjP, if_pos (by simp [hjP])]
            · rw [if_neg hjP, if_neg (by simp [hj, hjP])]
      · refine ⟨P, hPorig, ?_⟩
        unfold renumber_step
        rw [if_neg hcond]
        exact hPT

/-- The merge pass restores `T` exactly: for a marked-position set that lies
in `[0, n)` and is non-adjacent (so the `i++` skip after every clear never
jumps over a marked position), the scan clears every sign bit it set.  This
holds for every content of `SA`, `tmp` and the stream pointer, since the `SA`
writes never feed back into `T`. -/
theorem mergeU_restores (T0 : Nat → Int) (Q : List Nat) (n : Nat)
    (hT : ∀ j, 0 ≤ T0 j ∧ T0 j < 2 ^ 63)
    (hQn : ∀ p ∈ Q, p < n)
    (hadj : ∀ p ∈ Q, p + 1 ∉ Q) :
    ∀ (fuel i : Nat), n - i ≤ fuel → ∀ (SA : Nat → Int) (tmp : Int) (ptr : Nat),
    (mergeU (fun j => if j ∈ Q ∧ i ≤ j then orMin (T0 j) else T0 j)
      SA i n tmp ptr).1 = T0 := by
  intro fuel
  induction fuel with
  | zero =>
    intro i hi SA tmp ptr
    rw [mergeU, dif_neg (by omega : ¬ i < n)]
    funext j
    by_cases hj : j ∈ Q ∧ i ≤ j
    · exact absurd (hQn j hj.1) (by omega)
    · simp only [if_neg hj]
  | succ fuel ih =>
    intro i hi SA tmp ptr
    by_cases hin : i < n
    · rw [mergeU, dif_pos hin]
      by_cases hiQ : i ∈ Q
      · have hci : (if i ∈ Q ∧ i ≤ i then orMin (T0 i) else T0 i) < 0 := by
          rw [if_pos ⟨hiQ, le_refl i⟩]
          unfold orMin
          rw [if_pos (hT i).1]
          have := (hT i).2
          omega
        rw [if_pos hci]
        have hTeq : upd (fun j => if j ∈ Q ∧ i ≤ j then orMin (T0 j) else T0 j)
            i (andMax (if i ∈ Q ∧ i ≤ i then orMin (T0 i) else T0 i))
            = fun j => if j ∈ Q ∧ i + 2 ≤ j then orMin (T0 j) else T0 j := by
          funext j
          by_cases hj : j = i
          · rw [hj, upd_self, if_pos ⟨hiQ, le_refl i⟩,
              andMax_orMin _ (hT i).1 (hT i).2,
              if_neg (by omega : ¬(i ∈ Q ∧ i + 2 ≤ i))]
          · rw [upd_other _ _ _ _ hj]
            by_cases hj1 : j = i + 1
            · have hj1Q : j ∉ Q := by rw [hj1]; exact hadj i hiQ
              rw [if_neg (by simp [hj1Q]), if_neg (by simp [hj1Q])]
            · by_cases hjQ : j ∈ Q ∧ i ≤ j
              · rw [if_pos hjQ, if_pos ⟨hjQ.1, by omega⟩]
              · rw [if_neg hjQ, if_neg (fun hc => hjQ ⟨hc.1, by omega⟩)]
        rw [hTeq]
        exact ih (i + 2) (by omega) _ _ _
      · have hci : ¬((if i ∈ Q ∧ i ≤ i then orMin (T0 i) else T0 i) < 0) := by
          rw [if_neg (by simp [hiQ])]
          have := (hT i).1
          omega
        rw [if_neg hci]
        have hTeq : (fun j => if j ∈ Q ∧ i ≤ j then orMin (T0 j) else T0 j)
            = fun j => if j ∈ Q ∧ i + 1 ≤ j then orMin (T0 j) else T0 j := by
          funext j
          by_cases hj : j = i
          · rw [hj, if_neg (by simp [hiQ]), if_neg (by simp [hiQ])]
          · by_cases hjQ : j ∈ Q ∧ i ≤ j
            · rw [if_pos hjQ, if_pos ⟨hjQ.1, by omega⟩]
            · rw [if_neg hjQ, if_neg (fun hc => hjQ ⟨hc.1, by omega⟩)]
        rw [hTeq]
        exact ih (i + 1) (by omega) _ _ _
    · rw [mergeU, dif_neg hin]
      funext j
      by_cases hj : j ∈ Q ∧ i ≤ j
      · exact absurd (hQn j hj.1) (by omega)
      · simp only [if_neg hj]

/-- Claim C9: in the 32-bit recursive core, the only mutation of `T` is the
compact path's sign-bit marking (`renumber_unique_and_nonunique_lms_suffixes_32s`
ORs `SAINT_MIN` into `T` at a set of positions drawn from the scanned `SA`
prefix, changing nothing else of `T`), and the reconstruct path's
`merge_unique_lms_suffixes_32s` clears every such bit again: for any set of
marked positions inside `[0, n)` that is non-adjacent (LMS positions never
are adjacent) over a text with int32-range values, the merged `T` equals the
original `T` exactly, so `T` is externally observable as read-only. -/
theorem claim_C9_sign_bits_cleared
    (m n l : Nat) (T0 SA0 SA1 : Nat → Int) (f0 : Int) (Q : List Nat)
    (hT : ∀ j, 0 ≤ T0 j ∧ T0 j < 2 ^ 63)
    (hQn : ∀ p ∈ Q, p < n)
    (hQadj : ∀ p ∈ Q, p + 1 ∉ Q) :
    (∃ P : List Nat,
      (∀ p ∈ P, ∃ i, i < m ∧ p = (SA0 i).toNat) ∧
      (renumber_unique_and_nonunique_lms_suffixes_32s m ⟨T0, SA0, f0⟩).T
        = fun j => if j ∈ P then orMin (T0 j) else T0 j) ∧
    (merge_unique_lms_suffixes_32s
        (fun j => if j ∈ Q then orMin (T0 j) else T0 j) SA1 n m l).1 = T0 := by
  constructor
  · have hinit : ∃ P : List Nat, (∀ p ∈ P, ∃ i, i < m ∧ p = (SA0 i).toNat) ∧
        (⟨T0, SA0, f0⟩ : RenumberState).T
          = fun j => if j ∈ P then orMin (T0 j) else T0 j := by
      refine ⟨[], by simp, ?_⟩
      funext _j
      simp
    exact (renumber_fold_marks m T0 SA0 (fun j => (hT j).2)
      (List.range m) ⟨T0, SA0, f0⟩ (fun _ _ => rfl) hinit
      (fun i hi => List.mem_range.mp hi)).2
  · unfold merge_unique_lms_suffixes_32s
    have hQ0 : (fun j => if j ∈ Q then orMin (T0 j) else T0 j)
        = fun j => if j ∈ Q ∧ 0 ≤ j then orMin (T0 j) else T0 j := by
      funext j
      by_cases hj : j ∈ Q
      · rw [if_pos hj, if_pos ⟨hj, Nat.zero_le j⟩]
      · rw [if_neg hj, if_neg (fun hc => hj hc.1)]
    rw [hQ0]
    exact mergeU_restores T0 Q n hT hQn hQadj n 0 (by omega) _ _ _

theorem claim_C9_witness :
    ((∀ _j : Nat, 0 ≤ (0 : Int) ∧ (0 : Int) < 2 ^ 63) ∧
      (∀ p ∈ ([0] : List Nat), p < 2) ∧
      (∀ p ∈ ([0] : List Nat), p + 1 ∉ ([0] : List Nat))) ∧
    ((∃ P : List Nat,
        (∀ p ∈ P, ∃ i, i < 1 ∧ p = (0 : Int).toNat) ∧
        (renumber_unique_and_nonunique_lms_suffixes_32s 1
            ⟨fun _ => 0, fun _ => 0, 0⟩).T
          = fun j => if j ∈ P then orMin 0 else (0 : Int)) ∧
      (merge_unique_lms_suffixes_32s
          (fun j => if j ∈ ([0] : List Nat) then orMin 0 else (0 : Int))
          (fun _ => 0) 2 1 0).1 = fun _ => (0 : Int)) :=
  ⟨⟨fun _ => ⟨le_refl 0, by norm_num⟩, by decide, by decide⟩,
    claim_C9_sign_bits_cleared 1 2 0 (fun _ => 0) (fun _ => 0) (fun _ => 0)
      0 [0] (fun _ => ⟨le_refl 0, by norm_num⟩) (by decide) (by decide)⟩

end Libsais16

end LibsaisPacked
